import Mathlib

/-!
Verification of the Nutiteq routing core (osrm-backend-nutiteq).

This file embeds, in Lean 4, the parts of the repository needed to settle the
frozen claims: the package discovery / parent-child skip loop of
`NutiViaRoutePlugin`'s constructor, the request validation and query
construction of `NutiViaRoutePlugin::HandleRequest`, the `RoutingGraph` data
model (`BlockId`, `ElementId`, `SearchNode`, `NodeBlock`, `NodePtr`), the
zig-zag/delta geometry decoding, the block-cache ownership discipline, the
best-first nearest-node search, and libosmium's XML root-element version
check.  Functions whose bodies are not part of the repository snapshot
(only declared in `RoutingGraph.h`) are modelled from the specification and
marked as such in their doc comments.
-/

namespace NutiRouting

/-! ## Package import (NutiViaRoutePlugin constructor, part_000 lines 86-118)

The constructor scans `base_path` for `*.nutigraph` files, collects the
stripped names into a `std::set<std::string>`, and then, for each name: if the
name contains a `-` and the prefix before the first `-` is itself a collected
name, the file is skipped with a log message; otherwise `import` is attempted
inside a try/catch so that a failure only skips that one file. -/

/-- A package name, as the character list of the file name with the
`.nutigraph` suffix stripped. -/
abbrev PackageName := List Char

/-- `nutigraph_file.find('-')` followed by `substr(0, pos)`: the name before
the first `-` separator, or `none` when the name has no `-`. -/
def parentOf (name : PackageName) : Option PackageName :=
  if name.contains '-' then some (name.takeWhile (fun c => c ≠ '-')) else none

/-- The skip test of the constructor loop: a file is skipped exactly when its
name has a `-` and the name before the first `-` is also a discovered file. -/
def isSkipped (files : List PackageName) (name : PackageName) : Bool :=
  match parentOf name with
  | some parent => files.contains parent
  | none => false

/-- Outcome of the constructor loop for one discovered package file. -/
inductive LoadOutcome where
  | skipped
  | loaded
  | failed
deriving DecidableEq

/-- One iteration of the constructor loop (part_000 lines 97-118): the skip
test, then `routing_graph->import` inside try/catch.  `ok name = true` means
the import call succeeds (does not throw); a throw is caught, logged and
turned into `failed` without affecting the other iterations. -/
def processPackage (files : List PackageName) (ok : PackageName → Bool)
    (name : PackageName) : LoadOutcome :=
  if isSkipped files name then LoadOutcome.skipped
  else if ok name then LoadOutcome.loaded
  else LoadOutcome.failed

/-- The whole constructor loop: every discovered file is processed, each with
its own outcome. -/
def importAll (files : List PackageName) (ok : PackageName → Bool) :
    List (PackageName × LoadOutcome) :=
  files.map (fun name => (name, processPackage files ok name))

/-- The name `region`. -/
def regionName : PackageName := ['r', 'e', 'g', 'i', 'o', 'n']

/-- The name `region-sub`. -/
def regionSubName : PackageName :=
  ['r', 'e', 'g', 'i', 'o', 'n', '-', 's', 'u', 'b']

/-- The discovered file set {`region`, `region-sub`}. -/
def regionFiles : List PackageName := [regionName, regionSubName]

/-- C1, counterexample: with packages named `region` and `region-sub` and
an import that always succeeds, the constructor loads `region` and skips
`region-sub` — the exact opposite of the claim, which says only `region-sub`
is loaded and `region` is skipped. -/
theorem c1_skip_counterexample :
    processPackage regionFiles (fun _ => true) regionName = LoadOutcome.loaded ∧
    processPackage regionFiles (fun _ => true) regionSubName = LoadOutcome.skipped := by
  decide

/-- C1, amended: for every pair of discovered names where one equals the
other's prefix up to the first `-`, the CHILD (the longer, dashed name) is
skipped entirely and the parent (the prefix name) is attempted; in
particular, given `region` and `region-sub`, only `region` is loaded and a
skip is logged for `region-sub`. -/
theorem c1_parent_child_skip (files : List PackageName) (ok : PackageName → Bool)
    (child parent : PackageName)
    (hpar : parentOf child = some parent) (hmem : parent ∈ files) :
    processPackage files ok child = LoadOutcome.skipped ∧
    (isSkipped files parent = false → ok parent = true →
      processPackage files ok parent = LoadOutcome.loaded) := by
  constructor
  · have hskip : isSkipped files child = true := by
      unfold isSkipped
      rw [hpar]
      simpa using hmem
    simp [processPackage, hskip]
  · intro hns hok
    simp [processPackage, hns, hok]

/-- C1, amended, witness at the concrete `region` / `region-sub` pair. -/
theorem c1_parent_child_skip_witness :
    processPackage regionFiles (fun _ => true) regionSubName = LoadOutcome.skipped ∧
    (isSkipped regionFiles regionName = false → (fun _ => true) regionName = true →
      processPackage regionFiles (fun _ => true) regionName = LoadOutcome.loaded) :=
  c1_parent_child_skip regionFiles (fun _ => true) regionSubName regionName
    (by decide) (by decide)

/-- C6: a failure to import one package never aborts the import of the
others.  The outcome of a package depends only on the skip test and on that
package's own import result (`ok₁ name = ok₂ name` suffices for identical
outcomes, however the other packages behave), every discovered package is
still attempted (it appears in the outcome list), and a non-skipped package
whose own import succeeds is loaded. -/
theorem c6_import_failure_isolated (files : List PackageName)
    (ok₁ ok₂ : PackageName → Bool) (name : PackageName)
    (hmem : name ∈ files) (hagree : ok₁ name = ok₂ name) :
    processPackage files ok₁ name = processPackage files ok₂ name ∧
    (name, processPackage files ok₁ name) ∈ importAll files ok₁ ∧
    (isSkipped files name = false → ok₁ name = true →
      processPackage files ok₁ name = LoadOutcome.loaded) := by
  refine ⟨?_, ?_, ?_⟩
  · unfold processPackage
    rw [hagree]
  · unfold importAll
    exact List.mem_map.mpr ⟨name, hmem, rfl⟩
  · intro hns hok
    simp [processPackage, hns, hok]

/-- An import behavior in which package `a` fails and every other package
succeeds. -/
def okExceptA : PackageName → Bool := fun n => decide (n ≠ ['a'])

/-- C6, witness: package `a` fails to import while package `b` still loads;
`b`'s outcome agrees with a run in which `a` would have succeeded. -/
theorem c6_import_failure_isolated_witness :
    processPackage [['a'], ['b']] okExceptA ['b'] =
      processPackage [['a'], ['b']] (fun _ => true) ['b'] ∧
    (['b'], processPackage [['a'], ['b']] okExceptA ['b']) ∈
      importAll [['a'], ['b']] okExceptA ∧
    (isSkipped [['a'], ['b']] ['b'] = false → okExceptA ['b'] = true →
      processPackage [['a'], ['b']] okExceptA ['b'] = LoadOutcome.loaded) :=
  c6_import_failure_isolated [['a'], ['b']] okExceptA (fun _ => true)
    ['b'] (by decide) (by decide)

/-! ## HandleRequest (part_000 lines 127-167)

`HandleRequest` first rejects requests whose coordinate count exceeds a
positive `max_locations_viaroute`, then requests with fewer than two
coordinates, each time storing only a status message and returning
`Status::Error` before any routing is attempted.  The routing loop then runs
`i = 1 .. n-1`, but builds every leg's endpoints from `coordinates[0]` and
`coordinates[1]`. -/

/-- `FixedPointCoordinate`: scaled integer geographic coordinate. -/
structure FixedPointCoordinate where
  lat : Int
  lon : Int
deriving DecidableEq, Inhabited

/-- `WGSPos`: floating-point WGS84 position, embedded as exact rationals. -/
structure WGSPos where
  lat : ℚ
  lon : ℚ
deriving DecidableEq

/-- `COORDINATE_PRECISION` of OSRM: the fixed-point scale. -/
def COORDINATE_PRECISION : ℚ := 1000000

/-- `lat / COORDINATE_PRECISION`, `lon / COORDINATE_PRECISION` (part_000
lines 148-149). -/
def toWGSPos (c : FixedPointCoordinate) : WGSPos :=
  WGSPos.mk ((c.lat : ℚ) / COORDINATE_PRECISION) ((c.lon : ℚ) / COORDINATE_PRECISION)

/-- The endpoint pairs of the routing legs built by the loop at part_000
lines 146-155: one leg per `i` in `1 ≤ i < coordinates.size()`, every leg
from `coordinates[0]` and `coordinates[1]`. -/
def buildQueries (coords : List FixedPointCoordinate) : List (WGSPos × WGSPos) :=
  ((List.range coords.length).drop 1).map
    (fun _ => (toWGSPos (coords.getD 0 default), toWGSPos (coords.getD 1 default)))

/-- The request validation and query construction of `HandleRequest`
(part_000 lines 130-155): an `Except.error msg` models `Status::Error`
returned with only `status_message` set and no routing performed. -/
def handleRequestQueries (maxLocationsViaroute : Int)
    (coords : List FixedPointCoordinate) : Except String (List (WGSPos × WGSPos)) :=
  if maxLocationsViaroute > 0 ∧ (coords.length : Int) > maxLocationsViaroute then
    Except.error ("Number of entries " ++ toString coords.length ++
      " is higher than current maximum (" ++ toString maxLocationsViaroute ++ ")")
  else if coords.length < 2 then
    Except.error "Invalid coordinates"
  else
    Except.ok (buildQueries coords)

/-- C8: every routing leg of `HandleRequest` is built from `coordinates[0]`
and `coordinates[1]` only.  There are `n - 1` legs, all equal to the pair
made of the first two coordinates, and any coordinate list of the same
length agreeing on indices 0 and 1 yields the very same legs — coordinates
at index 2 and beyond never influence any leg's endpoints. -/
theorem c8_legs_use_first_two_coordinates
    (coords coords' : List FixedPointCoordinate)
    (hlen : coords'.length = coords.length)
    (h0 : coords'.getD 0 default = coords.getD 0 default)
    (h1 : coords'.getD 1 default = coords.getD 1 default) :
    buildQueries coords' = buildQueries coords ∧
    (buildQueries coords).length = coords.length - 1 ∧
    ∀ q ∈ buildQueries coords,
      q = (toWGSPos (coords.getD 0 default), toWGSPos (coords.getD 1 default)) := by
  refine ⟨?_, ?_, ?_⟩
  · unfold buildQueries
    rw [hlen, h0, h1]
  · unfold buildQueries
    rw [List.length_map, List.length_drop, List.length_range]
  · intro q hq
    unfold buildQueries at hq
    rcases List.mem_map.mp hq with ⟨i, _, hqi⟩
    exact hqi.symm

/-- A three-coordinate request. -/
def coordsABC : List FixedPointCoordinate :=
  [FixedPointCoordinate.mk 1 2, FixedPointCoordinate.mk 3 4, FixedPointCoordinate.mk 5 6]

/-- The same request with a different third coordinate. -/
def coordsABD : List FixedPointCoordinate :=
  [FixedPointCoordinate.mk 1 2, FixedPointCoordinate.mk 3 4, FixedPointCoordinate.mk 7 8]

/-- C8, witness: changing the third coordinate changes no leg. -/
theorem c8_legs_use_first_two_coordinates_witness :
    buildQueries coordsABD = buildQueries coordsABC ∧
    (buildQueries coordsABC).length = coordsABC.length - 1 ∧
    ∀ q ∈ buildQueries coordsABC,
      q = (toWGSPos (coordsABC.getD 0 default), toWGSPos (coordsABC.getD 1 default)) :=
  c8_legs_use_first_two_coordinates coordsABC coordsABD (by decide) (by decide) (by decide)

/-- C9: `HandleRequest` returns `Status::Error` with only a status message
and no routing performed exactly when the request has fewer than 2
coordinates or `max_locations_viaroute` is positive and exceeded; otherwise
it proceeds to routing with the constructed legs. -/
theorem c9_request_validation (maxLoc : Int) (coords : List FixedPointCoordinate) :
    ((∃ msg, handleRequestQueries maxLoc coords = Except.error msg) ↔
      coords.length < 2 ∨ (0 < maxLoc ∧ maxLoc < (coords.length : Int))) ∧
    (¬(coords.length < 2 ∨ (0 < maxLoc ∧ maxLoc < (coords.length : Int))) →
      handleRequestQueries maxLoc coords = Except.ok (buildQueries coords)) := by
  unfold handleRequestQueries
  by_cases hmax : maxLoc > 0 ∧ (coords.length : Int) > maxLoc
  · rw [if_pos hmax]
    constructor
    · constructor
      · intro _
        exact Or.inr ⟨hmax.1, hmax.2⟩
      · intro _
        exact ⟨_, rfl⟩
    · intro hcontra
      exact absurd (Or.inr ⟨hmax.1, hmax.2⟩) hcontra
  · rw [if_neg hmax]
    by_cases hlen : coords.length < 2
    · rw [if_pos hlen]
      constructor
      · constructor
        · intro _
          exact Or.inl hlen
        · intro _
          exact ⟨_, rfl⟩
      · intro hcontra
        exact absurd (Or.inl hlen) hcontra
    · rw [if_neg hlen]
      constructor
      · constructor
        · intro ⟨msg, hmsg⟩
          exact absurd hmsg (by simp)
        · intro h
          rcases h with h | h
          · exact absurd h hlen
          · exact absurd ⟨h.1, h.2⟩ hmax
      · intro _
        rfl

/-- C9, witness: a two-coordinate request with `max_locations_viaroute = 10`
passes validation; validation errors happen exactly per the stated rule. -/
theorem c9_request_validation_witness :
    ((∃ msg, handleRequestQueries 10 coordsABC = Except.error msg) ↔
      coordsABC.length < 2 ∨ (0 < (10 : Int) ∧ (10 : Int) < (coordsABC.length : Int))) ∧
    (¬(coordsABC.length < 2 ∨ (0 < (10 : Int) ∧ (10 : Int) < (coordsABC.length : Int))) →
      handleRequestQueries 10 coordsABC = Except.ok (buildQueries coordsABC)) :=
  c9_request_validation 10 coordsABC

/-! ## RoutingGraph data model (part_000 lines 404-541) -/

/-- `RoutingGraph::BlockId` (part_000 lines 406-418). -/
structure BlockId where
  packageId : Int
  blockIndex : Int
deriving DecidableEq

/-- `RoutingGraph::ElementId` (part_000 lines 420-432). -/
structure ElementId where
  blockId : BlockId
  elementIndex : Int
deriving DecidableEq

/-- `using GeometryId = ElementId` (part_000 line 434). -/
abbrev GeometryId := ElementId

/-- `using NameId = ElementId` (part_000 line 435). -/
abbrev NameId := ElementId

/-- `using NodeId = ElementId` (part_000 line 436). -/
abbrev NodeId := ElementId

/-- `using RTreeNodeId = ElementId` (part_000 line 438). -/
abbrev RTreeNodeId := ElementId

/-! ## Spatial search priority queue (part_000 lines 567-577)

`RoutingGraph::SearchNode` pairs an R-tree node id with a `double` distance
and defines `operator<` as `distance > searchNode.distance`, so that a
`std::priority_queue` (a max-heap under `operator<`) surfaces the entry of
smallest distance. -/

/-- `RoutingGraph::SearchNode`; the `double` distance is embedded as an
exact rational. -/
structure SearchNode where
  rtreeNodeId : RTreeNodeId
  distance : ℚ
deriving DecidableEq

/-- `SearchNode::operator<` (part_000 lines 574-576):
`distance > searchNode.distance`. -/
def SearchNode.lt (a b : SearchNode) : Prop := a.distance > b.distance

instance : LT SearchNode := ⟨SearchNode.lt⟩

instance (a b : SearchNode) : Decidable (a < b) :=
  inferInstanceAs (Decidable (b.distance < a.distance))

/-- The element a max-heap under `SearchNode::operator<` surfaces: a
maximal element of the queue under the comparator (`std::priority_queue`'s
`top()`). -/
def pqTop : List SearchNode → Option SearchNode
  | [] => none
  | x :: xs => some (xs.foldl (fun best y => if best < y then y else best) x)

/-- `pop()`: remove the surfaced element from the queue. -/
def pqPop (q : List SearchNode) : Option (SearchNode × List SearchNode) :=
  match pqTop q with
  | none => none
  | some t => some (t, q.erase t)

/-- Popping the whole queue, in order.  The `Nat` is fuel, instantiated with
the queue length. -/
def pqDrainAux : Nat → List SearchNode → List SearchNode
  | 0, _ => []
  | Nat.succ n, q =>
    match pqPop q with
    | none => []
    | some (t, rest) => t :: pqDrainAux n rest

/-- The sequence in which the queue's entries leave the queue under repeated
`top()`/`pop()`. -/
def pqDrain (q : List SearchNode) : List SearchNode := pqDrainAux q.length q

/-- `SearchNode::operator<` unfolded: `a < b` holds exactly when `a` has the
larger distance. -/
theorem SearchNode.lt_iff (a b : SearchNode) : a < b ↔ b.distance < a.distance :=
  Iff.rfl

/-- The fold inside `pqTop` yields an element of the list it scans. -/
theorem pqTopFold_mem (xs : List SearchNode) (x : SearchNode) :
    xs.foldl (fun best y => if best < y then y else best) x ∈ x :: xs := by
  induction xs generalizing x with
  | nil => simp
  | cons z zs ih =>
    simp only [List.foldl_cons]
    by_cases h : x < z
    · rw [if_pos h]
      exact List.mem_cons_of_mem x (ih z)
    · rw [if_neg h]
      rcases List.mem_cons.mp (ih x) with h' | h'
      · exact List.mem_cons.mpr (Or.inl h')
      · exact List.mem_cons.mpr (Or.inr (List.mem_cons.mpr (Or.inr h')))

/-- The fold inside `pqTop` yields an element whose distance is a lower
bound for the scanned list and the seed. -/
theorem pqTopFold_min (xs : List SearchNode) (x : SearchNode) :
    ∀ y ∈ x :: xs,
      (xs.foldl (fun best y => if best < y then y else best) x).distance ≤ y.distance := by
  induction xs generalizing x with
  | nil =>
    intro y hy
    simp at hy
    simp [hy]
  | cons z zs ih =>
    intro y hy
    simp only [List.foldl_cons]
    by_cases h : x < z
    · rw [if_pos h]
      have hzx : z.distance < x.distance := (SearchNode.lt_iff x z).mp h
      rcases List.mem_cons.mp hy with h' | h'
      · rw [h']
        exact le_of_lt (lt_of_le_of_lt (ih z z (List.mem_cons_self z zs)) hzx)
      · exact ih z y h'
    · rw [if_neg h]
      have hxz : x.distance ≤ z.distance :=
        le_of_not_lt (fun hc => h ((SearchNode.lt_iff x z).mpr hc))
      rcases List.mem_cons.mp hy with h' | h'
      · rw [h']
        exact ih x x (List.mem_cons_self x zs)
      · rcases List.mem_cons.mp h' with h'' | h''
        · rw [h'']
          exact le_trans (ih x x (List.mem_cons_self x zs)) hxz
        · exact ih x y (List.mem_cons.mpr (Or.inr h''))

/-- `top()` returns an element of the queue. -/
theorem pqTop_mem (q : List SearchNode) (t : SearchNode) (h : pqTop q = some t) :
    t ∈ q := by
  match q with
  | [] => simp [pqTop] at h
  | x :: xs =>
    simp only [pqTop, Option.some.injEq] at h
    exact h ▸ pqTopFold_mem xs x

/-- `top()` returns an element of minimal `lowerBoundDistance`. -/
theorem pqTop_min (q : List SearchNode) (t : SearchNode) (h : pqTop q = some t) :
    ∀ y ∈ q, t.distance ≤ y.distance := by
  match q with
  | [] => simp [pqTop] at h
  | x :: xs =>
    simp only [pqTop, Option.some.injEq] at h
    exact h ▸ pqTopFold_min xs x

/-- `pqPop` decomposed: a successful pop surfaces the top and erases it. -/
theorem pqPop_eq (q : List SearchNode) (t : SearchNode) (rest : List SearchNode)
    (h : pqPop q = some (t, rest)) : pqTop q = some t ∧ rest = q.erase t := by
  unfold pqPop at h
  cases htq : pqTop q with
  | none => rw [htq] at h; exact absurd h (by simp)
  | some t' =>
    rw [htq] at h
    simp only [Option.some.injEq, Prod.mk.injEq] at h
    obtain ⟨h1, h2⟩ := h
    subst h1
    exact ⟨rfl, h2.symm⟩

/-- Entries of the drained sequence come from the queue. -/
theorem pqDrainAux_subset (n : Nat) (q : List SearchNode) :
    ∀ y ∈ pqDrainAux n q, y ∈ q := by
  induction n generalizing q with
  | zero => simp [pqDrainAux]
  | succ n ih =>
    intro y hy
    simp only [pqDrainAux] at hy
    cases htop : pqPop q with
    | none => rw [htop] at hy; simp at hy
    | some pr =>
      obtain ⟨t, rest⟩ := pr
      rw [htop] at hy
      obtain ⟨htq, hrest⟩ := pqPop_eq q t rest htop
      rcases List.mem_cons.mp hy with h' | h'
      · exact h' ▸ pqTop_mem q t htq
      · have hmem := ih rest y h'
        rw [hrest] at hmem
        exact List.mem_of_mem_erase hmem

/-- Draining yields a sequence that is ascending in
`lowerBoundDistance`. -/
theorem pqDrainAux_sorted (n : Nat) (q : List SearchNode) :
    (pqDrainAux n q).Pairwise (fun a b => a.distance ≤ b.distance) := by
  induction n generalizing q with
  | zero => simp [pqDrainAux]
  | succ n ih =>
    simp only [pqDrainAux]
    cases htop : pqPop q with
    | none => simp
    | some pr =>
      obtain ⟨t, rest⟩ := pr
      obtain ⟨htq, hrest⟩ := pqPop_eq q t rest htop
      simp only [List.pairwise_cons]
      constructor
      · intro y hy
        have hyq : y ∈ q := by
          have hmem := pqDrainAux_subset n rest y hy
          rw [hrest] at hmem
          exact List.mem_of_mem_erase hmem
        exact pqTop_min q t htq y hyq
      · exact ih rest

/-- C4: `SearchNode::operator<` compares by reversed distance
(`a < b ↔ a.distance > b.distance`), so the spatial search's
`std::priority_queue` — a max-heap under this comparator — always surfaces
an entry of smallest `lowerBoundDistance`, and entries leave the queue in
ascending order of lower-bound distance. -/
theorem c4_search_queue_ascending :
    (∀ a b : SearchNode, a < b ↔ a.distance > b.distance) ∧
    (∀ q : List SearchNode, ∀ t, pqTop q = some t →
      t ∈ q ∧ ∀ y ∈ q, t.distance ≤ y.distance) ∧
    (∀ q : List SearchNode,
      (pqDrain q).Pairwise (fun a b => a.distance ≤ b.distance)) := by
  refine ⟨fun a b => Iff.rfl, ?_, ?_⟩
  · intro q t h
    exact ⟨pqTop_mem q t h, pqTop_min q t h⟩
  · intro q
    exact pqDrainAux_sorted q.length q

/-! ## Zig-zag / delta geometry decoding (part_000 line 599, spec §4.2)

`RoutingGraph::decodeZigZagValue(unsigned int) -> int` is declared in the
header; its body is not part of the snapshot. -/

/-- `2^32`, the size of `unsigned int`. -/
def UINT32_SIZE : Nat := 4294967296

/-- `2^31`, the magnitude bound of `int`. -/
def INT32_BOUND : Nat := 2147483648

/-- Modelled from the spec: `decodeZigZagValue` is missing from src (declared
at part_000 line 599); the spec gives `decodeZigZag(v) = (v >> 1) ^ -(v & 1)`
computed on `unsigned int` with the result read back as a signed `int`.
`(UINT32_SIZE - (v &&& 1)) % UINT32_SIZE` is the unsigned negation
`-(v & 1)`, and the final conditional converts the 32-bit word to its
two's-complement signed value. -/
def decodeZigZagValue (v : Nat) : Int :=
  let u : Nat := (v >>> 1) ^^^ ((UINT32_SIZE - (v &&& 1)) % UINT32_SIZE)
  if u < INT32_BOUND then (u : Int) else (u : Int) - (UINT32_SIZE : Int)

/-- Modelled from the spec: the zig-zag encoder of the offline pipeline that
produced the packages (spec §8 round-trip property); small-magnitude signed
deltas map to small unsigned values, `n ↦ 2n` for `n ≥ 0` and
`n ↦ 2|n| - 1` for `n < 0`. -/
def encodeZigZagValue (n : Int) : Nat :=
  if 0 ≤ n then 2 * n.toNat else 2 * (-n).toNat - 1

/-- `n` fits a signed 32-bit `int`. -/
def int32RangeB (n : Int) : Bool :=
  decide (-(INT32_BOUND : Int) ≤ n ∧ n < (INT32_BOUND : Int))

/-- Xor with the all-ones word is complement within the word:
`a ^^^ (2^k - 1) = 2^k - 1 - a` for `a < 2^k`. -/
theorem xor_all_ones (k a : Nat) (h : a < 2 ^ k) :
    a ^^^ (2 ^ k - 1) = 2 ^ k - 1 - a := by
  apply Nat.eq_of_testBit_eq
  intro i
  rw [Nat.testBit_xor, Nat.testBit_two_pow_sub_one]
  have hsub : 2 ^ k - 1 - a = 2 ^ k - (a + 1) := by omega
  rw [hsub, Nat.testBit_two_pow_sub_succ h]
  by_cases hik : i < k
  · simp [hik, Bool.xor_comm]
  · have hfalse : a.testBit i = false :=
      Nat.testBit_lt_two_pow (lt_of_lt_of_le h (Nat.pow_le_pow_right (by omega) (by omega)))
    simp [hik, hfalse]

/-- The spec's zig-zag decode formula inverts the encoder on every value
that fits a signed 32-bit `int`. -/
theorem decodeZigZag_encodeZigZag (n : Int) (h : int32RangeB n = true) :
    decodeZigZagValue (encodeZigZagValue n) = n := by
  have hrange : -(INT32_BOUND : Int) ≤ n ∧ n < (INT32_BOUND : Int) := of_decide_eq_true h
  unfold decodeZigZagValue encodeZigZagValue
  by_cases hn : 0 ≤ n
  · rw [if_pos hn]
    have heven : (2 * n.toNat) &&& 1 = 0 := by
      rw [Nat.and_one_is_mod]
      omega
    have hhalf : (2 * n.toNat) >>> 1 = n.toNat := by
      rw [Nat.shiftRight_one]
      omega
    rw [heven, hhalf]
    have hlt : n.toNat < INT32_BOUND := by
      have := hrange.2
      omega
    simp only [Nat.sub_zero, UINT32_SIZE]
    rw [Nat.mod_self, Nat.xor_zero, if_pos hlt]
    omega
  · rw [if_neg hn]
    have hm1 : 1 ≤ (-n).toNat := by omega
    have hmB : (-n).toNat ≤ INT32_BOUND := by
      have := hrange.1
      omega
    have hodd : (2 * (-n).toNat - 1) &&& 1 = 1 := by
      rw [Nat.and_one_is_mod]
      omega
    have hhalf : (2 * (-n).toNat - 1) >>> 1 = (-n).toNat - 1 := by
      rw [Nat.shiftRight_one]
      omega
    rw [hodd, hhalf]
    have hones : (UINT32_SIZE - 1) % UINT32_SIZE = 2 ^ 32 - 1 := by
      unfold UINT32_SIZE
      norm_num
    rw [hones]
    have hlt : (-n).toNat - 1 < 2 ^ 32 := by
      unfold INT32_BOUND at hmB
      omega
    rw [xor_all_ones 32 ((-n).toNat - 1) hlt]
    have hval : 2 ^ 32 - 1 - ((-n).toNat - 1) = 2 ^ 32 - (-n).toNat := by omega
    rw [hval]
    have hge : ¬ (2 ^ 32 - (-n).toNat < INT32_BOUND) := by
      unfold INT32_BOUND
      unfold INT32_BOUND at hmB
      omega
    rw [if_neg hge]
    have hcast : ((2 ^ 32 - (-n).toNat : Nat) : Int) = 2 ^ 32 - ((-n).toNat : Int) := by
      have hle : (-n).toNat ≤ 2 ^ 32 := by
        unfold INT32_BOUND at hmB
        omega
      omega
    rw [hcast]
    unfold UINT32_SIZE
    omega

/-- `RoutingGraph::Point` (part_000 lines 440-446): fixed-point integer
latitude/longitude. -/
structure Point where
  lat : Int
  lon : Int
deriving DecidableEq

/-- Delta/zig-zag decoding of a geometry (spec §4.2, modelled from the spec;
the geometry block decoder is not in src): each pair of unsigned values is
zig-zag decoded and accumulated onto the previous absolute point, the first
relative to zero. -/
def decodeGeometryAux (lat lon : Int) : List (Nat × Nat) → List Point
  | [] => []
  | dv :: rest =>
    let lat2 := lat + decodeZigZagValue dv.1
    let lon2 := lon + decodeZigZagValue dv.2
    Point.mk lat2 lon2 :: decodeGeometryAux lat2 lon2 rest

/-- Decode a whole stored geometry into absolute points. -/
def decodeGeometry (vals : List (Nat × Nat)) : List Point :=
  decodeGeometryAux 0 0 vals

/-- Modelled from the spec: the offline encoder, emitting zig-zag encoded
deltas relative to the previous point (first relative to zero). -/
def encodeGeometryAux (lat lon : Int) : List Point → List (Nat × Nat)
  | [] => []
  | p :: rest =>
    (encodeZigZagValue (p.lat - lat), encodeZigZagValue (p.lon - lon)) ::
      encodeGeometryAux p.lat p.lon rest

/-- Encode a whole geometry. -/
def encodeGeometry (pts : List Point) : List (Nat × Nat) :=
  encodeGeometryAux 0 0 pts

/-- Every consecutive delta of the point sequence (starting from the given
accumulator) fits a signed 32-bit `int`, as the stored `unsigned int` deltas
require. -/
def deltasRepresentableAux (lat lon : Int) : List Point → Bool
  | [] => true
  | p :: rest =>
    int32RangeB (p.lat - lat) && int32RangeB (p.lon - lon) &&
      deltasRepresentableAux p.lat p.lon rest

/-- Every consecutive delta of the point sequence fits a signed 32-bit
`int`. -/
def deltasRepresentable (pts : List Point) : Bool :=
  deltasRepresentableAux 0 0 pts

/-- Decoding inverts encoding from any accumulator. -/
theorem decodeGeometryAux_encodeGeometryAux (pts : List Point) :
    ∀ lat lon : Int, deltasRepresentableAux lat lon pts = true →
      decodeGeometryAux lat lon (encodeGeometryAux lat lon pts) = pts := by
  induction pts with
  | nil =>
    intro lat lon _
    rfl
  | cons p rest ih =>
    intro lat lon hrep
    simp only [deltasRepresentableAux, Bool.and_eq_true] at hrep
    obtain ⟨⟨hlat, hlon⟩, hrest⟩ := hrep
    simp only [encodeGeometryAux, decodeGeometryAux]
    rw [decodeZigZag_encodeZigZag (p.lat - lat) hlat,
        decodeZigZag_encodeZigZag (p.lon - lon) hlon]
    have hlat2 : lat + (p.lat - lat) = p.lat := by omega
    have hlon2 : lon + (p.lon - lon) = p.lon := by omega
    rw [hlat2, hlon2, ih p.lat p.lon hrest]

/-- C5: geometry decoding is the exact inverse of the zig-zag/delta
encoding.  `decodeZigZag(v) = (v >> 1) ^ -(v & 1)`, applied to each latitude
and longitude delta and accumulated from zero in sequence order,
reconstructs the original absolute `Point` sequence exactly for every
sequence whose deltas are representable in the stored 32-bit words —
including a single point and the empty sequence. -/
theorem c5_zigzag_roundtrip (n : Int) (pts : List Point)
    (hn : int32RangeB n = true) (hpts : deltasRepresentable pts = true) :
    decodeZigZagValue (encodeZigZagValue n) = n ∧
    decodeGeometry (encodeGeometry pts) = pts ∧
    decodeGeometry (encodeGeometry ([] : List Point)) = [] := by
  refine ⟨decodeZigZag_encodeZigZag n hn, ?_, rfl⟩
  exact decodeGeometryAux_encodeGeometryAux pts 0 0 hpts

/-- A three-point geometry with negative and positive deltas. -/
def samplePts : List Point :=
  [Point.mk 1000 (-2000), Point.mk 995 (-1990), Point.mk 1005 (-1990)]

/-- C5, witness at a concrete three-point geometry. -/
theorem c5_zigzag_roundtrip_witness :
    decodeZigZagValue (encodeZigZagValue (-7)) = -7 ∧
    decodeGeometry (encodeGeometry samplePts) = samplePts ∧
    decodeGeometry (encodeGeometry ([] : List Point)) = [] :=
  c5_zigzag_roundtrip (-7) samplePts (by decide) (by decide)

/-! ## Node blocks and node handles (part_000 lines 448-532) -/

/-- `RoutingGraph::EdgeData` (part_000 lines 448-453). -/
structure EdgeData where
  weight : Nat
  turnInstruction : Nat
deriving DecidableEq

/-- `RoutingGraph::Edge` (part_000 lines 455-464). -/
structure Edge where
  targetNodeId : NodeId
  contractedNodeId : NodeId
  contracted : Bool
  forward : Bool
  backward : Bool
  edgeData : EdgeData
deriving DecidableEq

/-- `RoutingGraph::NodeData` (part_000 lines 466-474). -/
structure NodeData where
  geometryId : GeometryId
  geometryReversed : Bool
  nameId : NameId
  weight : Nat
  travelMode : Nat
deriving DecidableEq

/-- `RoutingGraph::Node` (part_000 lines 476-482); the `firstEdge`/`lastEdge`
border pointers into the owning block's edge array are embedded as indices
into that array. -/
structure Node where
  firstEdge : Nat
  lastEdge : Nat
  nodeData : NodeData
deriving DecidableEq

/-- `RoutingGraph::NodeBlock` (part_000 lines 503-508). -/
structure NodeBlock where
  nodes : List Node
  edges : List Edge
deriving DecidableEq

/-- `RoutingGraph::NodePtr` (part_000 lines 522-532): a raw node reference
plus a shared hold on the owning decoded block; holding the block by value
is the shallow embedding of the `shared_ptr<NodeBlock>` member that keeps
the node pointer valid. -/
structure NodePtr where
  node : Node
  nodeBlock : NodeBlock
deriving DecidableEq

/-- The `NodePtr` constructor (part_000 line 524):
`_node(&nodeBlock->nodes.at(elementIndex))`.  `std::vector::at` throws
`std::out_of_range` for any index outside the vector — including negative
`int` indices, which convert to huge `size_t` values — modelled as
`Except.error`. -/
def mkNodePtr (nodeBlock : NodeBlock) (elementIndex : Int) : Except String NodePtr :=
  if h : 0 ≤ elementIndex ∧ elementIndex.toNat < nodeBlock.nodes.length then
    Except.ok (NodePtr.mk (nodeBlock.nodes.get ⟨elementIndex.toNat, h.2⟩) nodeBlock)
  else
    Except.error "node element index out of range"

/-- Modelled from the spec: `RoutingGraph::getNode` is declared at part_000
line 548 but its body is not in the snapshot; per spec §4.4 it loads the
node's NodeBlock through the cache (`blocks` abstracts the cache load, which
fails when the block cannot be loaded) and returns a handle referencing the
element at the node's index, via the `NodePtr` constructor above. -/
def getNode (blocks : BlockId → Option NodeBlock) (nodeId : NodeId) :
    Except String NodePtr :=
  match blocks nodeId.blockId with
  | none => Except.error "node block load failed"
  | some blk => mkNodePtr blk nodeId.elementIndex

/-- C7: for every `NodeId` whose `elementIndex` is out of range for the
decoded NodeBlock, `getNode` fails with a corrupt-data error rather than
returning a `NodePtr`, and it never clamps; for every in-range index it
returns a handle referencing exactly the element at that index. -/
theorem c7_getNode_range_checked (blocks : BlockId → Option NodeBlock)
    (nodeId : NodeId) (blk : NodeBlock)
    (hblk : blocks nodeId.blockId = some blk) :
    (¬(0 ≤ nodeId.elementIndex ∧ nodeId.elementIndex.toNat < blk.nodes.length) →
      getNode blocks nodeId = Except.error "node element index out of range") ∧
    (∀ h : 0 ≤ nodeId.elementIndex ∧ nodeId.elementIndex.toNat < blk.nodes.length,
      getNode blocks nodeId =
        Except.ok (NodePtr.mk (blk.nodes.get ⟨nodeId.elementIndex.toNat, h.2⟩) blk)) := by
  constructor
  · intro hout
    unfold getNode
    rw [hblk]
    exact dif_neg hout
  · intro hin
    unfold getNode
    rw [hblk]
    exact dif_pos hin

/-- A one-node block. -/
def sampleNode : Node :=
  Node.mk 0 0 (NodeData.mk (ElementId.mk (BlockId.mk 0 0) 0) false
    (ElementId.mk (BlockId.mk 0 0) 0) 7 1)

/-- A block holding exactly `sampleNode`. -/
def sampleBlock : NodeBlock := NodeBlock.mk [sampleNode] []

/-- A block table holding `sampleBlock` for every id. -/
def sampleBlocks : BlockId → Option NodeBlock := fun _ => some sampleBlock

/-- C7, witness: index 5 is rejected as corrupt data, index 0 yields exactly
the single element. -/
theorem c7_getNode_range_checked_witness :
    getNode sampleBlocks (ElementId.mk (BlockId.mk 0 0) 5) =
      Except.error "node element index out of range" ∧
    getNode sampleBlocks (ElementId.mk (BlockId.mk 0 0) 0) =
      Except.ok (NodePtr.mk (sampleBlock.nodes.get
        ⟨(0 : Int).toNat, by decide⟩) sampleBlock) :=
  ⟨(c7_getNode_range_checked sampleBlocks (ElementId.mk (BlockId.mk 0 0) 5)
      sampleBlock rfl).1 (by decide),
   (c7_getNode_range_checked sampleBlocks (ElementId.mk (BlockId.mk 0 0) 0)
      sampleBlock rfl).2 ⟨by decide, by decide⟩⟩

/-! ## Block cache and shared block ownership (spec §4.3, §9; part_000
lines 522-532, 606-610)

The `cache::lru_cache` implementation is not in the snapshot; the cache
layer is modelled from the spec: reference-counted immutable decoded blocks,
the cache holding one reference per entry and each live `NodePtr` another,
a block being freed only when no reference remains.  Handles (`Nat`) stand
for the identity of one allocated `shared_ptr`-managed block. -/

/-- The shared state of one node-block cache: the live decoded blocks
(`heap`, keyed by allocation handle), the next fresh handle, the cache's
entries in recency order (front = most recent), and the handles held by
outstanding `NodePtr`s. -/
structure CacheState where
  heap : List (Nat × NodeBlock)
  next : Nat
  entries : List (BlockId × Nat)
  held : List Nat
deriving DecidableEq

/-- Look an allocation handle up among the live blocks. -/
def heapLookup : List (Nat × NodeBlock) → Nat → Option NodeBlock
  | [], _ => none
  | (k, b) :: rest, h => if k = h then some b else heapLookup rest h

/-- Look a `BlockId` up in the cache entries. -/
def cacheLookup : List (BlockId × Nat) → BlockId → Option Nat
  | [], _ => none
  | (k, v) :: rest, id => if k = id then some v else cacheLookup rest id

/-- Whether any reference to the handle remains (a cache entry or a held
`NodePtr`). -/
def referenced (entries : List (BlockId × Nat)) (held : List Nat) (h : Nat) : Bool :=
  held.contains h || entries.any (fun e => e.2 == h)

/-- LRU eviction: when over capacity, the least-recently-used entry is
dropped from the cache; the block itself is freed only when no reference to
it remains (the `shared_ptr` reference count reaches zero). -/
def evictIfOver (capacity : Nat) (s : CacheState) : CacheState :=
  if s.entries.length ≤ capacity then s
  else
    match s.entries.getLast? with
    | none => s
    | some e =>
      if referenced s.entries.dropLast s.held e.2 then
        CacheState.mk s.heap s.next s.entries.dropLast s.held
      else
        CacheState.mk (s.heap.filter (fun p => decide (p.1 ≠ e.2))) s.next
          s.entries.dropLast s.held

/-- `get_or_load`: on hit, promote the entry to the front (recency); on
miss, decode the block, allocate it a fresh handle, insert it at the front
and evict if over capacity. -/
def loadBlock (capacity : Nat) (id : BlockId) (blk : NodeBlock) (s : CacheState) :
    CacheState :=
  match cacheLookup s.entries id with
  | some h =>
    CacheState.mk s.heap s.next
      ((id, h) :: s.entries.filter (fun e => decide (e.1 ≠ id))) s.held
  | none =>
    evictIfOver capacity
      (CacheState.mk ((s.next, blk) :: s.heap) (s.next + 1)
        ((id, s.next) :: s.entries) s.held)

/-- A sequence of cache loads (each possibly evicting). -/
def applyLoads (capacity : Nat) (ops : List (BlockId × NodeBlock)) (s : CacheState) :
    CacheState :=
  ops.foldl (fun s op => loadBlock capacity op.1 op.2 s) s

/-- Heap well-formedness: every allocated handle is below the allocation
counter. -/
def CacheWF (s : CacheState) : Prop := ∀ p ∈ s.heap, p.1 < s.next

/-- A successful heap lookup means the handle is allocated. -/
theorem heapLookup_mem (heap : List (Nat × NodeBlock)) (h : Nat) (blk : NodeBlock)
    (hl : heapLookup heap h = some blk) : (h, blk) ∈ heap := by
  induction heap with
  | nil => exact absurd hl (by simp [heapLookup])
  | cons p rest ih =>
    obtain ⟨k, b⟩ := p
    unfold heapLookup at hl
    by_cases hk : k = h
    · rw [if_pos hk] at hl
      simp only [Option.some.injEq] at hl
      rw [hk, hl]
      exact List.mem_cons_self _ _
    · rw [if_neg hk] at hl
      exact List.mem_cons_of_mem _ (ih hl)

/-- `heapLookup` unfolded one step. -/
theorem heapLookup_cons (k : Nat) (b : NodeBlock) (rest : List (Nat × NodeBlock))
    (h : Nat) :
    heapLookup ((k, b) :: rest) h = if k = h then some b else heapLookup rest h :=
  rfl

/-- Prepending a block under a distinct handle leaves lookups unchanged. -/
theorem heapLookup_cons_ne (heap : List (Nat × NodeBlock)) (h h' : Nat)
    (blk' : NodeBlock) (hne : h' ≠ h) :
    heapLookup ((h', blk') :: heap) h = heapLookup heap h := by
  rw [heapLookup_cons, if_neg hne]

/-- Freeing a distinct handle leaves lookups unchanged. -/
theorem heapLookup_filter_ne (heap : List (Nat × NodeBlock)) (h x : Nat)
    (hne : x ≠ h) :
    heapLookup (heap.filter (fun p => decide (p.1 ≠ x))) h = heapLookup heap h := by
  induction heap with
  | nil => rfl
  | cons p rest ih =>
    obtain ⟨k, b⟩ := p
    by_cases hk : k = x
    · rw [List.filter_cons_of_neg (by simp [hk])]
      rw [ih, heapLookup_cons, if_neg (fun hkh : k = h => hne (hk ▸ hkh))]
    · rw [List.filter_cons_of_pos (by simp [hk])]
      rw [heapLookup_cons, heapLookup_cons]
      by_cases hkh : k = h
      · rw [if_pos hkh, if_pos hkh]
      · rw [if_neg hkh, if_neg hkh]
        exact ih

/-- Eviction preserves well-formedness, held handles, and the block seen
through any held handle: a block whose handle is still held is never
freed. -/
theorem evictIfOver_preserves (capacity : Nat) (s : CacheState) (h : Nat)
    (blk : NodeBlock) (hwf : CacheWF s) (hheld : h ∈ s.held)
    (hlook : heapLookup s.heap h = some blk) :
    CacheWF (evictIfOver capacity s) ∧ h ∈ (evictIfOver capacity s).held ∧
    heapLookup (evictIfOver capacity s).heap h = some blk := by
  unfold evictIfOver
  split
  · exact ⟨hwf, hheld, hlook⟩
  · split
    · exact ⟨hwf, hheld, hlook⟩
    · rename_i e _
      split
      · exact ⟨fun p hp => hwf p hp, hheld, hlook⟩
      · rename_i hrefX
        refine ⟨fun p hp => hwf p (List.mem_of_mem_filter hp), hheld, ?_⟩
        have hne2 : e.2 ≠ h := by
          intro heq
          apply hrefX
          unfold referenced
          rw [heq]
          simp only [Bool.or_eq_true]
          exact Or.inl (List.elem_eq_true_of_mem hheld)
        rw [heapLookup_filter_ne s.heap h e.2 hne2]
        exact hlook

/-- One cache load — hit or miss, with or without eviction — preserves
well-formedness, the held handles, and the block seen through any held
handle. -/
theorem loadBlock_preserves (capacity : Nat) (id : BlockId) (nblk : NodeBlock)
    (s : CacheState) (h : Nat) (blk : NodeBlock)
    (hwf : CacheWF s) (hheld : h ∈ s.held) (hlook : heapLookup s.heap h = some blk) :
    CacheWF (loadBlock capacity id nblk s) ∧
    h ∈ (loadBlock capacity id nblk s).held ∧
    heapLookup (loadBlock capacity id nblk s).heap h = some blk := by
  unfold loadBlock
  split
  · exact ⟨fun p hp => hwf p hp, hheld, hlook⟩
  · have hlt : h < s.next := hwf (h, blk) (heapLookup_mem s.heap h blk hlook)
    apply evictIfOver_preserves
    · intro p hp
      rcases List.mem_cons.mp hp with hp' | hp'
      · rw [hp']
        exact Nat.lt_succ_self _
      · exact Nat.lt_succ_of_lt (hwf p hp')
    · exact hheld
    · rw [heapLookup_cons_ne s.heap h s.next nblk (by omega)]
      exact hlook

/-- C2: a `NodePtr` obtained from `getNode` stays valid across any
subsequent sequence of cache loads and evictions of other blocks.  The
handle it holds keeps one shared reference alive, so the eviction path never
frees the block it points at, and the node and edge data it yields are the
very same block contents as when the handle was taken. -/
theorem c2_nodePtr_survives_eviction (capacity : Nat)
    (ops : List (BlockId × NodeBlock)) (s : CacheState) (h : Nat) (blk : NodeBlock)
    (hwf : CacheWF s) (hheld : h ∈ s.held) (hlook : heapLookup s.heap h = some blk) :
    heapLookup (applyLoads capacity ops s).heap h = some blk ∧
    h ∈ (applyLoads capacity ops s).held := by
  induction ops generalizing s with
  | nil => exact ⟨hlook, hheld⟩
  | cons op rest ih =>
    obtain ⟨hwf', hheld', hlook'⟩ :=
      loadBlock_preserves capacity op.1 op.2 s h blk hwf hheld hlook
    exact ih (loadBlock capacity op.1 op.2 s) hwf' hheld' hlook'

/-- A cache state in which handle 0 holds `sampleBlock`, the cache has the
one entry for it, and one outstanding `NodePtr` holds handle 0. -/
def sampleCache : CacheState :=
  CacheState.mk [(0, sampleBlock)] 1 [(BlockId.mk 0 0, 0)] [0]

/-- Loads of two other blocks, overflowing a capacity-1 cache and forcing
the eviction of `sampleBlock`'s entry. -/
def sampleLoads : List (BlockId × NodeBlock) :=
  [(BlockId.mk 0 1, NodeBlock.mk [] []), (BlockId.mk 0 2, NodeBlock.mk [] [])]

/-- C2, witness: after two loads drive eviction through a capacity-1 cache,
the held handle still yields the original block unchanged. -/
theorem c2_nodePtr_survives_eviction_witness :
    heapLookup (applyLoads 1 sampleLoads sampleCache).heap 0 = some sampleBlock ∧
    0 ∈ (applyLoads 1 sampleLoads sampleCache).held :=
  c2_nodePtr_survives_eviction 1 sampleLoads sampleCache 0 sampleBlock
    (by unfold CacheWF; decide) (by decide) (by decide)

/-! ## Nearest-node spatial search (spec §4.5; part_000 lines 484-489,
534-541, 551, 567-577, 591-597)

`findNearestNode`, `getClosestSegmentPoint`, `getPointDistance` and
`getBBoxDistance` are declared in the header; their bodies are not in the
snapshot.  The search is modelled from spec §4.5: a best-first traversal of
the R-tree forest with a priority queue keyed by point-to-bbox lower-bound
distance, candidates generated by projecting the query point onto every
consecutive geometry segment, and the branch-and-bound termination rule.
Distances use one consistent metric — planar squared distance over exact
rationals — for both the bbox lower bound and the exact candidate distance,
as spec §4.5 requires ("all three must use the same metric"). -/

/-- A geographic bounding box (`cglib::bounding_box<double, 2>`). -/
structure Rect where
  minLat : ℚ
  minLon : ℚ
  maxLat : ℚ
  maxLon : ℚ
deriving DecidableEq

/-- Clamp `x` into `[lo, hi]`. -/
def clampQ (x lo hi : ℚ) : ℚ := max lo (min hi x)

/-- Modelled from the spec: `getPointDistance`, as planar squared distance
(the body is not in src; any metric consistent with the bbox bound works for
the search, and squared planar distance is that consistent choice). -/
def sqDist (a b : ℚ × ℚ) : ℚ := (a.1 - b.1) ^ 2 + (a.2 - b.2) ^ 2

/-- Modelled from the spec: `getBBoxDistance`, the point-to-bbox
lower-bound distance, as the squared distance to the clamped point. -/
def getBBoxDistance (pos : ℚ × ℚ) (r : Rect) : ℚ :=
  sqDist pos (clampQ pos.1 r.minLat r.maxLat, clampQ pos.2 r.minLon r.maxLon)

/-- Modelled from the spec: the exact projection fraction of
`getClosestSegmentPoint` — the fraction along `p0 → p1` of the projection of
`pos`, clamped to the segment. -/
def segRelPos (pos p0 p1 : ℚ × ℚ) : ℚ :=
  if (p1.1 - p0.1) ^ 2 + (p1.2 - p0.2) ^ 2 = 0 then 0
  else
    clampQ
      (((pos.1 - p0.1) * (p1.1 - p0.1) + (pos.2 - p0.2) * (p1.2 - p0.2)) /
        ((p1.1 - p0.1) ^ 2 + (p1.2 - p0.2) ^ 2)) 0 1

/-- Modelled from the spec: `getClosestSegmentPoint`, the point of the
segment at the projection fraction. -/
def segClosestPoint (pos p0 p1 : ℚ × ℚ) : ℚ × ℚ :=
  (p0.1 + segRelPos pos p0 p1 * (p1.1 - p0.1),
   p0.2 + segRelPos pos p0 p1 * (p1.2 - p0.2))

/-- `RoutingGraph::NearestNode` (part_000 lines 534-541). -/
structure NearestNode where
  nodePos : ℚ × ℚ
  nodeId : NodeId
  geometrySegmentIndex : Nat
  geometryRelPos : ℚ
deriving DecidableEq

/-- A nearest-node candidate together with its exact distance to the query
point. -/
structure Cand where
  res : NearestNode
  dist : ℚ
deriving DecidableEq

/-- The candidates one node's geometry contributes: the query point
projected onto each consecutive segment (spec §4.5 step 4). -/
def geometryCandidates (pos : ℚ × ℚ) (nodeId : NodeId) (geom : List (ℚ × ℚ)) :
    List Cand :=
  (List.range (geom.length - 1)).map (fun i =>
    Cand.mk
      (NearestNode.mk
        (segClosestPoint pos (geom.getD i (0, 0)) (geom.getD (i + 1) (0, 0)))
        nodeId i
        (segRelPos pos (geom.getD i (0, 0)) (geom.getD (i + 1) (0, 0))))
      (sqDist pos (segClosestPoint pos (geom.getD i (0, 0)) (geom.getD (i + 1) (0, 0)))))

/-- The candidates of one referenced NodeBlock; `blockNodes` abstracts
loading the block and reading each node's geometry. -/
def blockCandidates (blockNodes : BlockId → List (NodeId × List (ℚ × ℚ)))
    (pos : ℚ × ℚ) (bid : BlockId) : List Cand :=
  ((blockNodes bid).map (fun ng => geometryCandidates pos ng.1 ng.2)).flatten

mutual
/-- `RoutingGraph::RTreeNode` (part_000 lines 484-489), with the on-disk id
indirections resolved into a tree: child entries (`children`) and leaf
NodeBlock entries (`nodeBlockIds`), each under a bounding box.  Both lists
may be populated, as in the source layout. -/
inductive RTree where
  | mk (children : RForest) (nodeBlockIds : List (Rect × BlockId))
/-- The list of child entries of an R-tree node. -/
inductive RForest where
  | nil
  | cons (rect : Rect) (tree : RTree) (rest : RForest)
end

mutual
/-- Number of R-tree nodes in a tree. -/
def RTree.size : RTree → Nat
  | RTree.mk f _ => 1 + RForest.size f
/-- Number of R-tree nodes in a forest. -/
def RForest.size : RForest → Nat
  | RForest.nil => 0
  | RForest.cons _ t rest => RTree.size t + RForest.size rest
end

mutual
/-- Every candidate reachable in a tree (spec §4.5: all node geometries of
all NodeBlocks referenced below it). -/
def treeCands (bn : BlockId → List (NodeId × List (ℚ × ℚ))) (pos : ℚ × ℚ) :
    RTree → List Cand
  | RTree.mk f leaves =>
    (leaves.map (fun l => blockCandidates bn pos l.2)).flatten ++ forestCands bn pos f
/-- Every candidate reachable in a forest. -/
def forestCands (bn : BlockId → List (NodeId × List (ℚ × ℚ))) (pos : ℚ × ℚ) :
    RForest → List Cand
  | RForest.nil => []
  | RForest.cons _ t rest => treeCands bn pos t ++ forestCands bn pos rest
end

/-- `b` lower-bounds the distances of all listed candidates. -/
def boundsCands (b : ℚ) (cs : List Cand) : Bool :=
  cs.all (fun c => decide (b ≤ c.dist))

mutual
/-- Bounding boxes are sound for the query point: each entry's bbox
lower-bound distance is at most the exact distance of every candidate below
that entry (spec §4.5's metric-consistency requirement on well-formed
packages). -/
def soundTree (bn : BlockId → List (NodeId × List (ℚ × ℚ))) (pos : ℚ × ℚ) :
    RTree → Bool
  | RTree.mk f leaves =>
    leaves.all (fun l =>
      boundsCands (getBBoxDistance pos l.1) (blockCandidates bn pos l.2)) &&
    soundForest bn pos f
/-- Soundness of every entry of a forest. -/
def soundForest (bn : BlockId → List (NodeId × List (ℚ × ℚ))) (pos : ℚ × ℚ) :
    RForest → Bool
  | RForest.nil => true
  | RForest.cons rect t rest =>
    boundsCands (getBBoxDistance pos rect) (treeCands bn pos t) &&
    soundTree bn pos t && soundForest bn pos rest
end

/-- Push a node's child entries, each keyed by its bbox's lower-bound
distance to the query point (spec §4.5 step 3). -/
def toChildEntries (pos : ℚ × ℚ) : RForest → List (ℚ × RTree)
  | RForest.nil => []
  | RForest.cons rect t rest => (getBBoxDistance pos rect, t) :: toChildEntries pos rest

/-- Pop the minimum-bound entry of the priority queue — what
`std::priority_queue` with the `SearchNode` comparator delivers (spec §4.5
step 2). -/
def popMin : List (ℚ × RTree) → Option ((ℚ × RTree) × List (ℚ × RTree))
  | [] => none
  | e :: rest =>
    match popMin rest with
    | none => some (e, [])
    | some (m, rest2) => if e.1 ≤ m.1 then some (e, rest) else some (m, e :: rest2)

/-- `popMin` fails only on the empty queue. -/
theorem popMin_none (q : List (ℚ × RTree)) : popMin q = none ↔ q = [] := by
  cases q with
  | nil => simp [popMin]
  | cons e rest =>
    simp only [popMin]
    cases popMin rest with
    | none => simp
    | some mr =>
      obtain ⟨m, rest2⟩ := mr
      by_cases hle : e.1 ≤ m.1
      · simp [hle]
      · simp [hle]

/-- `popMin` removes exactly the popped entry. -/
theorem popMin_perm (q : List (ℚ × RTree)) (m : ℚ × RTree)
    (rest : List (ℚ × RTree)) (h : popMin q = some (m, rest)) :
    q.Perm (m :: rest) := by
  induction q generalizing m rest with
  | nil => exact absurd h (by simp [popMin])
  | cons e rest0 ih =>
    simp only [popMin] at h
    cases hrec : popMin rest0 with
    | none =>
      rw [hrec] at h
      simp only [Option.some.injEq, Prod.mk.injEq] at h
      obtain ⟨h1, h2⟩ := h
      rw [← h1, ← h2]
      have : rest0 = [] := (popMin_none rest0).mp hrec
      rw [this]
    | some mr =>
      obtain ⟨m0, rest2⟩ := mr
      rw [hrec] at h
      have h' : (if e.1 ≤ m0.1 then some (e, rest0) else some (m0, e :: rest2)) =
          some (m, rest) := h
      by_cases hle : e.1 ≤ m0.1
      · rw [if_pos hle] at h'
        simp only [Option.some.injEq, Prod.mk.injEq] at h'
        obtain ⟨h1, h2⟩ := h'
        rw [← h1, ← h2]
      · rw [if_neg hle] at h'
        simp only [Option.some.injEq, Prod.mk.injEq] at h'
        obtain ⟨h1, h2⟩ := h'
        rw [← h1, ← h2]
        have hperm0 := ih m0 rest2 hrec
        exact List.Perm.trans (hperm0.cons e) (List.Perm.swap m0 e rest2)

/-- `popMin` pops an entry whose bound is minimal in the queue. -/
theorem popMin_min (q : List (ℚ × RTree)) (m : ℚ × RTree)
    (rest : List (ℚ × RTree)) (h : popMin q = some (m, rest)) :
    ∀ e ∈ q, m.1 ≤ e.1 := by
  induction q generalizing m rest with
  | nil => exact absurd h (by simp [popMin])
  | cons e rest0 ih =>
    simp only [popMin] at h
    cases hrec : popMin rest0 with
    | none =>
      rw [hrec] at h
      simp only [Option.some.injEq, Prod.mk.injEq] at h
      obtain ⟨h1, _⟩ := h
      intro x hx
      have hr0 : rest0 = [] := (popMin_none rest0).mp hrec
      rw [hr0] at hx
      simp at hx
      rw [← h1, hx]
    | some mr =>
      obtain ⟨m0, rest2⟩ := mr
      rw [hrec] at h
      have h' : (if e.1 ≤ m0.1 then some (e, rest0) else some (m0, e :: rest2)) =
          some (m, rest) := h
      by_cases hle : e.1 ≤ m0.1
      · rw [if_pos hle] at h'
        simp only [Option.some.injEq, Prod.mk.injEq] at h'
        obtain ⟨h1, _⟩ := h'
        intro x hx
        rcases List.mem_cons.mp hx with hx' | hx'
        · rw [← h1, hx']
        · rw [← h1]
          exact le_trans hle (ih m0 rest2 hrec x hx')
      · rw [if_neg hle] at h'
        simp only [Option.some.injEq, Prod.mk.injEq] at h'
        obtain ⟨h1, _⟩ := h'
        intro x hx
        rcases List.mem_cons.mp hx with hx' | hx'
        · rw [← h1, hx']
          exact le_of_lt (lt_of_not_le hle)
        · rw [← h1]
          exact ih m0 rest2 hrec x hx'

/-- Total number of R-tree nodes left in the queue — the search's
termination measure. -/
def qSize (q : List (ℚ × RTree)) : Nat :=
  (q.map (fun e => RTree.size e.2)).sum

/-- `qSize` of a cons. -/
theorem qSize_cons (e : ℚ × RTree) (l : List (ℚ × RTree)) :
    qSize (e :: l) = RTree.size e.2 + qSize l := by
  simp [qSize]

/-- `qSize` of an append. -/
theorem qSize_append (a b : List (ℚ × RTree)) :
    qSize (a ++ b) = qSize a + qSize b := by
  simp [qSize]

/-- `qSize` is invariant under permutation. -/
theorem qSize_perm (a b : List (ℚ × RTree)) (h : a.Perm b) : qSize a = qSize b := by
  unfold qSize
  exact (h.map (fun e => RTree.size e.2)).sum_eq

/-- Child entries carry exactly the forest's nodes. -/
theorem qSize_toChildEntries (pos : ℚ × ℚ) :
    ∀ f : RForest, qSize (toChildEntries pos f) = RForest.size f
  | RForest.nil => rfl
  | RForest.cons rect t rest => by
    show qSize ((getBBoxDistance pos rect, t) :: toChildEntries pos rest) =
      RTree.size t + RForest.size rest
    rw [qSize_cons, qSize_toChildEntries pos rest]

/-- Replace the popped entry's tree by its children (spec §4.5 step 3): the
remaining queue plus one child entry per child. -/
def expandQueue (pos : ℚ × ℚ) (rest : List (ℚ × RTree)) : RTree → List (ℚ × RTree)
  | RTree.mk f _ => rest ++ toChildEntries pos f

/-- Expanding strictly shrinks the measure: the expanded node is consumed. -/
theorem qSize_expandQueue (pos : ℚ × ℚ) (rest : List (ℚ × RTree)) :
    ∀ t : RTree, qSize (expandQueue pos rest t) + 1 = qSize rest + RTree.size t
  | RTree.mk f leaves => by
    show qSize (rest ++ toChildEntries pos f) + 1 = qSize rest + (1 + RForest.size f)
    rw [qSize_append, qSize_toChildEntries]
    omega

/-- Track the best candidate seen so far, keyed by exact distance (spec
§4.5 step 4). -/
def updateBest : Option Cand → Cand → Option Cand
  | none, c => some c
  | some b, c => if c.dist < b.dist then some c else some b

/-- Fold a batch of new candidates into the tracked best. -/
def updateBestList (best : Option Cand) (cs : List Cand) : Option Cand :=
  cs.foldl updateBest best

/-- `updateBest` always delivers a candidate at most as far as the new one
and at most as far as the previous best. -/
theorem updateBest_le (best : Option Cand) (c : Cand) :
    ∃ u, updateBest best c = some u ∧ u.dist ≤ c.dist ∧
      ∀ b, best = some b → u.dist ≤ b.dist := by
  cases best with
  | none => exact ⟨c, rfl, le_refl _, fun b hb => absurd hb (by simp)⟩
  | some b =>
    by_cases hlt : c.dist < b.dist
    · refine ⟨c, ?_, le_refl _, ?_⟩
      · simp [updateBest, hlt]
      · intro b' hb'
        simp only [Option.some.injEq] at hb'
        rw [← hb']
        exact le_of_lt hlt
    · refine ⟨b, ?_, le_of_not_lt hlt, ?_⟩
      · simp [updateBest, hlt]
      · intro b' hb'
        simp only [Option.some.injEq] at hb'
        rw [← hb']

/-- An empty fold result means there was nothing to track. -/
theorem updateBestList_none (cs : List Cand) :
    ∀ best, updateBestList best cs = none → best = none ∧ cs = [] := by
  induction cs with
  | nil =>
    intro best h
    exact ⟨h, rfl⟩
  | cons c rest ih =>
    intro best h
    obtain ⟨u, hu, _, _⟩ := updateBest_le best c
    have := (ih (updateBest best c) h).1
    rw [hu] at this
    exact absurd this (by simp)

/-- The tracked best is one of the candidates or the previous best. -/
theorem updateBestList_mem (cs : List Cand) :
    ∀ best r, updateBestList best cs = some r → r ∈ cs ∨ best = some r := by
  induction cs with
  | nil =>
    intro best r h
    exact Or.inr h
  | cons c rest ih =>
    intro best r h
    rcases ih (updateBest best c) r h with hmem | hbest
    · exact Or.inl (List.mem_cons_of_mem c hmem)
    · cases best with
      | none =>
        have : c = r := by simpa [updateBest] using hbest
        exact Or.inl (this ▸ List.mem_cons_self c rest)
      | some b =>
        by_cases hlt : c.dist < b.dist
        · have : c = r := by simpa [updateBest, hlt] using hbest
          exact Or.inl (this ▸ List.mem_cons_self c rest)
        · have : b = r := by simpa [updateBest, hlt] using hbest
          exact Or.inr (by rw [this])

/-- The tracked best is at most as far as the previous best. -/
theorem updateBestList_le_best (cs : List Cand) :
    ∀ best r, updateBestList best cs = some r →
      ∀ b, best = some b → r.dist ≤ b.dist := by
  induction cs with
  | nil =>
    intro best r h b hb
    rw [hb] at h
    simp only [updateBestList, List.foldl_nil, Option.some.injEq] at h
    rw [← h]
  | cons c rest ih =>
    intro best r h b hb
    obtain ⟨u, hu, _, hub⟩ := updateBest_le best c
    have hr := ih (updateBest best c) r h u hu
    exact le_trans hr (hub b hb)

/-- The tracked best is at most as far as every candidate in the batch. -/
theorem updateBestList_le_elem (cs : List Cand) :
    ∀ best r, updateBestList best cs = some r →
      ∀ c ∈ cs, r.dist ≤ c.dist := by
  induction cs with
  | nil =>
    intro best r _ c hc
    exact absurd hc (by simp)
  | cons c0 rest ih =>
    intro best r h c hc
    obtain ⟨u, hu, huc, _⟩ := updateBest_le best c0
    rcases List.mem_cons.mp hc with hc' | hc'
    · have hr := updateBestList_le_best rest (updateBest best c0) r h u hu
      rw [hc']
      exact le_trans hr huc
    · exact ih (updateBest best c0) r h c hc'

/-- The candidate batch contributed by one popped node's leaf entries. -/
def leafCands (bn : BlockId → List (NodeId × List (ℚ × ℚ))) (pos : ℚ × ℚ) :
    RTree → List Cand
  | RTree.mk _ leaves => (leaves.map (fun l => blockCandidates bn pos l.2)).flatten

/-- Fold the popped node's leaf candidates into the tracked best (spec
§4.5 step 4). -/
def expandBest (bn : BlockId → List (NodeId × List (ℚ × ℚ))) (pos : ℚ × ℚ)
    (best : Option Cand) (t : RTree) : Option Cand :=
  updateBestList best (leafCands bn pos t)

/-- The branch-and-bound stop test (spec §4.5 step 5): stop when a best
candidate exists and its exact distance is at most the popped (minimal)
lower bound. -/
def stopNow (best : Option Cand) (bound : ℚ) : Bool :=
  match best with
  | none => false
  | some bc => decide (bc.dist ≤ bound)

/-- The best-first search loop of `findNearestNode` (modelled from spec
§4.5, the body being absent from src): pop the minimum-bound entry; if the
tracked best already beats that bound — or the queue is empty — terminate;
otherwise fold in the popped node's leaf candidates, push its children and
continue. -/
def searchLoop (bn : BlockId → List (NodeId × List (ℚ × ℚ))) (pos : ℚ × ℚ)
    (q : List (ℚ × RTree)) (best : Option Cand) : Option Cand :=
  match hpop : popMin q with
  | none => best
  | some (m, rest) =>
    if stopNow best m.1 then best
    else searchLoop bn pos (expandQueue pos rest m.2) (expandBest bn pos best m.2)
termination_by qSize q
decreasing_by
  have hperm := popMin_perm q m rest hpop
  have h1 : qSize q = qSize (m :: rest) := qSize_perm q (m :: rest) hperm
  have h2 := qSize_expandQueue pos rest m.2
  have h3 := qSize_cons m rest
  omega

/-- `RoutingGraph::findNearestNode` (modelled from spec §4.5): seed the
queue with every package root keyed by its bbox's lower-bound distance to
the query point, then run the best-first loop with no candidate yet. -/
def findNearestNode (bn : BlockId → List (NodeId × List (ℚ × ℚ)))
    (packages : List (Rect × RTree)) (pos : ℚ × ℚ) : Option Cand :=
  searchLoop bn pos (packages.map (fun p => (getBBoxDistance pos p.1, p.2))) none

/-- The child forest of an R-tree node. -/
def RTree.children : RTree → RForest
  | RTree.mk f _ => f

/-- The loop terminates on an empty queue, returning the tracked best. -/
theorem searchLoop_empty (bn : BlockId → List (NodeId × List (ℚ × ℚ))) (pos : ℚ × ℚ)
    (q : List (ℚ × RTree)) (best : Option Cand) (hpop : popMin q = none) :
    searchLoop bn pos q best = best := by
  rw [searchLoop, hpop]

/-- After a successful pop, the loop either stops — exactly when the best
candidate's exact distance is at most the popped (minimal) lower bound — or
expands the popped node and continues. -/
theorem searchLoop_step (bn : BlockId → List (NodeId × List (ℚ × ℚ))) (pos : ℚ × ℚ)
    (q : List (ℚ × RTree)) (best : Option Cand) (m : ℚ × RTree)
    (rest : List (ℚ × RTree)) (hpop : popMin q = some (m, rest)) :
    searchLoop bn pos q best =
      if stopNow best m.1 then best
      else searchLoop bn pos (expandQueue pos rest m.2) (expandBest bn pos best m.2) := by
  rw [searchLoop, hpop]

/-- A queue entry is sound when its tree's bounds are sound and its own key
lower-bounds every candidate below it. -/
def EntrySound (bn : BlockId → List (NodeId × List (ℚ × ℚ))) (pos : ℚ × ℚ)
    (e : ℚ × RTree) : Prop :=
  soundTree bn pos e.2 = true ∧ ∀ c ∈ treeCands bn pos e.2, e.1 ≤ c.dist

/-- All candidates still reachable from the queue. -/
def qCands (bn : BlockId → List (NodeId × List (ℚ × ℚ))) (pos : ℚ × ℚ)
    (q : List (ℚ × RTree)) : List Cand :=
  (q.map (fun e => treeCands bn pos e.2)).flatten

/-- `qCands` of a cons. -/
theorem qCands_cons (bn : BlockId → List (NodeId × List (ℚ × ℚ))) (pos : ℚ × ℚ)
    (e : ℚ × RTree) (l : List (ℚ × RTree)) :
    qCands bn pos (e :: l) = treeCands bn pos e.2 ++ qCands bn pos l := rfl

/-- `qCands` of an append. -/
theorem qCands_append (bn : BlockId → List (NodeId × List (ℚ × ℚ))) (pos : ℚ × ℚ)
    (a b : List (ℚ × RTree)) :
    qCands bn pos (a ++ b) = qCands bn pos a ++ qCands bn pos b := by
  unfold qCands
  rw [List.map_append, List.flatten_append]

/-- Membership in `qCands` comes from membership in some entry's tree. -/
theorem qCands_mem (bn : BlockId → List (NodeId × List (ℚ × ℚ))) (pos : ℚ × ℚ)
    (q : List (ℚ × RTree)) (x : Cand) :
    x ∈ qCands bn pos q ↔ ∃ e ∈ q, x ∈ treeCands bn pos e.2 := by
  unfold qCands
  rw [List.mem_flatten]
  constructor
  · intro ⟨l, hl, hx⟩
    obtain ⟨e, he, hle⟩ := List.mem_map.mp hl
    exact ⟨e, he, hle ▸ hx⟩
  · intro ⟨e, he, hx⟩
    exact ⟨treeCands bn pos e.2, List.mem_map.mpr ⟨e, he, rfl⟩, hx⟩

/-- `qCands` respects queue permutations memberwise. -/
theorem qCands_mem_perm (bn : BlockId → List (NodeId × List (ℚ × ℚ))) (pos : ℚ × ℚ)
    (q q' : List (ℚ × RTree)) (hperm : q.Perm q') (x : Cand) :
    x ∈ qCands bn pos q ↔ x ∈ qCands bn pos q' := by
  rw [qCands_mem, qCands_mem]
  constructor
  · intro ⟨e, he, hx⟩
    exact ⟨e, hperm.mem_iff.mp he, hx⟩
  · intro ⟨e, he, hx⟩
    exact ⟨e, hperm.mem_iff.mpr he, hx⟩

/-- The child entries of a forest carry exactly the forest's candidates. -/
theorem qCands_toChildEntries (bn : BlockId → List (NodeId × List (ℚ × ℚ)))
    (pos : ℚ × ℚ) :
    ∀ f : RForest, qCands bn pos (toChildEntries pos f) = forestCands bn pos f
  | RForest.nil => rfl
  | RForest.cons rect t rest => by
    show treeCands bn pos t ++ qCands bn pos (toChildEntries pos rest) =
      treeCands bn pos t ++ forestCands bn pos rest
    rw [qCands_toChildEntries bn pos rest]

/-- A tree's candidates split into its leaf candidates and its children's
candidates. -/
theorem treeCands_split (bn : BlockId → List (NodeId × List (ℚ × ℚ))) (pos : ℚ × ℚ) :
    ∀ t : RTree, treeCands bn pos t = leafCands bn pos t ++
      qCands bn pos (toChildEntries pos (RTree.children t))
  | RTree.mk f leaves => by
    show (leaves.map (fun l => blockCandidates bn pos l.2)).flatten ++
        forestCands bn pos f =
      (leaves.map (fun l => blockCandidates bn pos l.2)).flatten ++
        qCands bn pos (toChildEntries pos f)
    rw [qCands_toChildEntries]

/-- A sound forest yields sound child entries. -/
theorem toChildEntries_sound (bn : BlockId → List (NodeId × List (ℚ × ℚ)))
    (pos : ℚ × ℚ) :
    ∀ f : RForest, soundForest bn pos f = true →
      ∀ e ∈ toChildEntries pos f, EntrySound bn pos e
  | RForest.nil => by
    intro _ e he
    exact absurd he (by simp [toChildEntries])
  | RForest.cons rect t rest => by
    intro hsf e he
    have hsf' : (boundsCands (getBBoxDistance pos rect) (treeCands bn pos t) &&
        soundTree bn pos t && soundForest bn pos rest) = true := hsf
    simp only [Bool.and_eq_true] at hsf'
    obtain ⟨⟨hbc, hst⟩, hrest⟩ := hsf'
    have he' : e ∈ (getBBoxDistance pos rect, t) :: toChildEntries pos rest := he
    rcases List.mem_cons.mp he' with he'' | he''
    · refine he'' ▸ ⟨hst, ?_⟩
      intro c hc
      have := List.all_eq_true.mp hbc c hc
      exact of_decide_eq_true this
    · exact toChildEntries_sound bn pos rest hrest e he''

/-- A sound tree has sound child entries and leaf bounds. -/
theorem soundTree_parts (bn : BlockId → List (NodeId × List (ℚ × ℚ))) (pos : ℚ × ℚ) :
    ∀ t : RTree, soundTree bn pos t = true →
      soundForest bn pos (RTree.children t) = true
  | RTree.mk f leaves => by
    intro hst
    have hst' : (leaves.all (fun l =>
        boundsCands (getBBoxDistance pos l.1) (blockCandidates bn pos l.2)) &&
        soundForest bn pos f) = true := hst
    simp only [Bool.and_eq_true] at hst'
    exact hst'.2

/-- An R-tree node counts at least itself. -/
theorem RTree.size_pos : ∀ t : RTree, 1 ≤ RTree.size t
  | RTree.mk f _ => by
    show 1 ≤ 1 + RForest.size f
    omega

/-- `expandQueue` through the `children` accessor. -/
theorem expandQueue_eq (pos : ℚ × ℚ) (rest : List (ℚ × RTree)) :
    ∀ t : RTree,
      expandQueue pos rest t = rest ++ toChildEntries pos (RTree.children t)
  | RTree.mk _ _ => rfl

/-- The search-loop contract on the empty queue. -/
theorem searchLoop_spec_empty (bn : BlockId → List (NodeId × List (ℚ × ℚ)))
    (pos : ℚ × ℚ) (best : Option Cand) :
    (searchLoop bn pos [] best = none →
      best = none ∧ qCands bn pos ([] : List (ℚ × RTree)) = []) ∧
    (∀ r, searchLoop bn pos [] best = some r →
      (r ∈ qCands bn pos ([] : List (ℚ × RTree)) ∨ best = some r) ∧
      (∀ c ∈ qCands bn pos ([] : List (ℚ × RTree)), r.dist ≤ c.dist) ∧
      (∀ bc, best = some bc → r.dist ≤ bc.dist)) := by
  rw [searchLoop_empty bn pos [] best rfl]
  refine ⟨fun h => ⟨h, rfl⟩, fun r hr => ⟨Or.inr hr, ?_, ?_⟩⟩
  · intro c hc
    exact absurd hc (by simp [qCands])
  · intro bc hbc
    rw [hbc] at hr
    simp only [Option.some.injEq] at hr
    rw [hr]

/-- The search-loop contract: under sound queue entries, the loop returns
`none` only when no candidate exists anywhere, and a returned candidate is
one of the reachable candidates (or the incoming best), beats every
reachable candidate, and beats the incoming best. -/
theorem searchLoop_spec (bn : BlockId → List (NodeId × List (ℚ × ℚ))) (pos : ℚ × ℚ)
    (n : Nat) :
    ∀ q best, qSize q ≤ n → (∀ e ∈ q, EntrySound bn pos e) →
      ((searchLoop bn pos q best = none → best = none ∧ qCands bn pos q = []) ∧
       (∀ r, searchLoop bn pos q best = some r →
         (r ∈ qCands bn pos q ∨ best = some r) ∧
         (∀ c ∈ qCands bn pos q, r.dist ≤ c.dist) ∧
         (∀ bc, best = some bc → r.dist ≤ bc.dist))) := by
  induction n with
  | zero =>
    intro q best hsize hsound
    have hq : q = [] := by
      cases q with
      | nil => rfl
      | cons e l =>
        exfalso
        have h1 := RTree.size_pos e.2
        have h2 := qSize_cons e l
        omega
    subst hq
    exact searchLoop_spec_empty bn pos best
  | succ n ih =>
    intro q best hsize hsound
    cases hpop : popMin q with
    | none =>
      have hq : q = [] := (popMin_none q).mp hpop
      subst hq
      exact searchLoop_spec_empty bn pos best
    | some mr =>
      obtain ⟨m, rest⟩ := mr
      have hperm := popMin_perm q m rest hpop
      have hmem_m : m ∈ q := hperm.mem_iff.mpr (List.mem_cons_self m rest)
      have hsound_m := hsound m hmem_m
      have hqc : ∀ x : Cand, x ∈ qCands bn pos q ↔
          x ∈ treeCands bn pos m.2 ∨ x ∈ qCands bn pos rest := by
        intro x
        rw [qCands_mem_perm bn pos q (m :: rest) hperm x, qCands_cons, List.mem_append]
      rw [searchLoop_step bn pos q best m rest hpop]
      by_cases hstop : stopNow best m.1 = true
      · rw [if_pos hstop]
        cases hbest : best with
        | none =>
          rw [hbest] at hstop
          have hfalse : (false : Bool) = true := hstop
          exact absurd hfalse (by simp)
        | some bc =>
          rw [hbest] at hstop
          have hbcle : bc.dist ≤ m.1 := of_decide_eq_true hstop
          refine ⟨fun h => absurd h (by simp), fun r hr => ?_⟩
          simp only [Option.some.injEq] at hr
          subst hr
          refine ⟨Or.inr rfl, ?_, ?_⟩
          · intro c hc
            rcases (hqc c).mp hc with hc' | hc'
            · exact le_trans hbcle (hsound_m.2 c hc')
            · obtain ⟨e, he, hce⟩ := (qCands_mem bn pos rest c).mp hc'
              have heq : e ∈ q := hperm.mem_iff.mpr (List.mem_cons_of_mem m he)
              have h1 := (hsound e heq).2 c hce
              have h2 := popMin_min q m rest hpop e heq
              exact le_trans hbcle (le_trans h2 h1)
          · intro bc' hbc'
            simp only [Option.some.injEq] at hbc'
            rw [hbc']
      · rw [if_neg hstop]
        have hsize' : qSize (expandQueue pos rest m.2) ≤ n := by
          have h1 := qSize_expandQueue pos rest m.2
          have h2 : qSize q = qSize (m :: rest) := qSize_perm q (m :: rest) hperm
          have h3 := qSize_cons m rest
          omega
        have hsound' : ∀ e ∈ expandQueue pos rest m.2, EntrySound bn pos e := by
          intro e he
          rw [expandQueue_eq] at he
          rcases List.mem_append.mp he with he' | he'
          · exact hsound e (hperm.mem_iff.mpr (List.mem_cons_of_mem m he'))
          · exact toChildEntries_sound bn pos (RTree.children m.2)
              (soundTree_parts bn pos m.2 hsound_m.1) e he'
        obtain ⟨ihnone, ihsome⟩ :=
          ih (expandQueue pos rest m.2) (expandBest bn pos best m.2) hsize' hsound'
        have hnewc : ∀ x : Cand, x ∈ qCands bn pos (expandQueue pos rest m.2) ↔
            x ∈ qCands bn pos rest ∨ x ∈ forestCands bn pos (RTree.children m.2) := by
          intro x
          rw [expandQueue_eq, qCands_append, List.mem_append, qCands_toChildEntries]
        have htc := treeCands_split bn pos m.2
        have htcq := qCands_toChildEntries bn pos (RTree.children m.2)
        constructor
        · intro hnone
          obtain ⟨hbnone, hqnone⟩ := ihnone hnone
          obtain ⟨hbest_none, hleaf_nil⟩ :=
            updateBestList_none (leafCands bn pos m.2) best hbnone
          refine ⟨hbest_none, ?_⟩
          rw [List.eq_nil_iff_forall_not_mem]
          intro x hx
          rcases (hqc x).mp hx with hx' | hx'
          · rw [htc] at hx'
            rcases List.mem_append.mp hx' with hx'' | hx''
            · rw [hleaf_nil] at hx''
              exact absurd hx'' (by simp)
            · rw [htcq] at hx''
              have hxnew : x ∈ qCands bn pos (expandQueue pos rest m.2) :=
                (hnewc x).mpr (Or.inr hx'')
              rw [hqnone] at hxnew
              exact absurd hxnew (by simp)
          · have hxnew : x ∈ qCands bn pos (expandQueue pos rest m.2) :=
              (hnewc x).mpr (Or.inl hx')
            rw [hqnone] at hxnew
            exact absurd hxnew (by simp)
        · intro r hr
          obtain ⟨hmem, hmin, hbestle⟩ := ihsome r hr
          refine ⟨?_, ?_, ?_⟩
          · rcases hmem with hm' | hm'
            · rcases (hnewc r).mp hm' with h' | h'
              · exact Or.inl ((hqc r).mpr (Or.inr h'))
              · refine Or.inl ((hqc r).mpr (Or.inl ?_))
                rw [htc]
                refine List.mem_append.mpr (Or.inr ?_)
                rw [htcq]
                exact h'
            · rcases updateBestList_mem (leafCands bn pos m.2) best r hm' with h' | h'
              · refine Or.inl ((hqc r).mpr (Or.inl ?_))
                rw [htc]
                exact List.mem_append.mpr (Or.inl h')
              · exact Or.inr h'
          · intro c hc
            rcases (hqc c).mp hc with hc' | hc'
            · rw [htc] at hc'
              rcases List.mem_append.mp hc' with hc'' | hc''
              · cases hnb : expandBest bn pos best m.2 with
                | none =>
                  obtain ⟨_, hnil⟩ :=
                    updateBestList_none (leafCands bn pos m.2) best hnb
                  rw [hnil] at hc''
                  exact absurd hc'' (by simp)
                | some u =>
                  have h1 :=
                    updateBestList_le_elem (leafCands bn pos m.2) best u hnb c hc''
                  have h2 := hbestle u hnb
                  exact le_trans h2 h1
              · rw [htcq] at hc''
                exact hmin c ((hnewc c).mpr (Or.inr hc''))
            · exact hmin c ((hnewc c).mpr (Or.inl hc'))
          · intro bc hbc
            cases hnb : expandBest bn pos best m.2 with
            | none =>
              obtain ⟨hbn, _⟩ := updateBestList_none (leafCands bn pos m.2) best hnb
              rw [hbn] at hbc
              exact absurd hbc (by simp)
            | some u =>
              have h1 := updateBestList_le_best (leafCands bn pos m.2) best u hnb bc hbc
              have h2 := hbestle u hnb
              exact le_trans h2 h1

/-- The search-loop contract, measured by the queue's own size. -/
theorem searchLoop_spec_self (bn : BlockId → List (NodeId × List (ℚ × ℚ)))
    (pos : ℚ × ℚ) (q : List (ℚ × RTree)) (best : Option Cand)
    (hsound : ∀ e ∈ q, EntrySound bn pos e) :
    ((searchLoop bn pos q best = none → best = none ∧ qCands bn pos q = []) ∧
     (∀ r, searchLoop bn pos q best = some r →
       (r ∈ qCands bn pos q ∨ best = some r) ∧
       (∀ c ∈ qCands bn pos q, r.dist ≤ c.dist) ∧
       (∀ bc, best = some bc → r.dist ≤ bc.dist))) :=
  searchLoop_spec bn pos (qSize q) q best (Nat.le_refl _) hsound

/-- Every forest candidate lives in some tree of the forest, of no larger
size. -/
theorem forestCands_mem_tree (bn : BlockId → List (NodeId × List (ℚ × ℚ)))
    (pos : ℚ × ℚ) :
    ∀ f : RForest, ∀ c ∈ forestCands bn pos f,
      ∃ t : RTree, RTree.size t ≤ RForest.size f ∧ c ∈ treeCands bn pos t
  | RForest.nil => by
    intro c hc
    exact absurd hc (by simp [forestCands])
  | RForest.cons rect t rest => by
    intro c hc
    have hc' : c ∈ treeCands bn pos t ++ forestCands bn pos rest := hc
    rcases List.mem_append.mp hc' with h | h
    · refine ⟨t, ?_, h⟩
      show RTree.size t ≤ RTree.size t + RForest.size rest
      omega
    · obtain ⟨t', hsz, hct⟩ := forestCands_mem_tree bn pos rest c h
      refine ⟨t', ?_, hct⟩
      have : RForest.size (RForest.cons rect t rest) =
          RTree.size t + RForest.size rest := rfl
      omega

/-- Every tree candidate comes from some referenced NodeBlock's candidate
list. -/
theorem treeCands_mem_block (bn : BlockId → List (NodeId × List (ℚ × ℚ)))
    (pos : ℚ × ℚ) (n : Nat) :
    ∀ t : RTree, RTree.size t ≤ n → ∀ c ∈ treeCands bn pos t,
      ∃ bid, c ∈ blockCandidates bn pos bid := by
  induction n with
  | zero =>
    intro t hsz c _
    exfalso
    have := RTree.size_pos t
    omega
  | succ n ih =>
    intro t hsz c hc
    obtain ⟨f, leaves⟩ := t
    have hc' : c ∈ (leaves.map (fun l => blockCandidates bn pos l.2)).flatten ++
        forestCands bn pos f := hc
    rcases List.mem_append.mp hc' with h | h
    · obtain ⟨l', hl', hcl⟩ := List.mem_flatten.mp h
      obtain ⟨lv, _, hle⟩ := List.mem_map.mp hl'
      exact ⟨lv.2, hle ▸ hcl⟩
    · obtain ⟨t', hsz', hct⟩ := forestCands_mem_tree bn pos f c h
      refine ih t' ?_ c hct
      have hs : RTree.size (RTree.mk f leaves) = 1 + RForest.size f := rfl
      omega

/-- A block candidate is exactly one segment projection: its node id,
segment index, relative position (the exact projection fraction) and
distance are those of one consecutive segment of one node's geometry. -/
theorem blockCandidates_fields (bn : BlockId → List (NodeId × List (ℚ × ℚ)))
    (pos : ℚ × ℚ) (bid : BlockId) (c : Cand)
    (hc : c ∈ blockCandidates bn pos bid) :
    ∃ ng ∈ bn bid, ∃ i : Nat, i < ng.2.length - 1 ∧
      c = Cand.mk (NearestNode.mk
            (segClosestPoint pos (ng.2.getD i (0, 0)) (ng.2.getD (i + 1) (0, 0)))
            ng.1 i (segRelPos pos (ng.2.getD i (0, 0)) (ng.2.getD (i + 1) (0, 0))))
          (sqDist pos (segClosestPoint pos (ng.2.getD i (0, 0)) (ng.2.getD (i + 1) (0, 0)))) := by
  unfold blockCandidates at hc
  obtain ⟨l, hl, hcl⟩ := List.mem_flatten.mp hc
  obtain ⟨ng, hng, hle⟩ := List.mem_map.mp hl
  rw [← hle] at hcl
  unfold geometryCandidates at hcl
  obtain ⟨i, hi, hci⟩ := List.mem_map.mp hcl
  exact ⟨ng, hng, i, List.mem_range.mp hi, hci.symm⟩

/-- All candidates of the whole loaded package forest. -/
def allCands (bn : BlockId → List (NodeId × List (ℚ × ℚ))) (pos : ℚ × ℚ)
    (packages : List (Rect × RTree)) : List Cand :=
  (packages.map (fun p => treeCands bn pos p.2)).flatten

/-- The seeded queue's reachable candidates are all the forest's
candidates. -/
theorem allCands_eq_qCands (bn : BlockId → List (NodeId × List (ℚ × ℚ)))
    (pos : ℚ × ℚ) (packages : List (Rect × RTree)) :
    qCands bn pos (packages.map (fun p => (getBBoxDistance pos p.1, p.2))) =
      allCands bn pos packages := by
  unfold qCands allCands
  rw [List.map_map]
  rfl

/-- C3: on every loaded forest whose bounding boxes are sound for the query
point (each entry's bbox lower-bound distance is at most the exact distance
of every candidate below it — the spec's metric-consistency requirement),
`findNearestNode` returns a candidate of globally minimum exact distance
among all candidates of all packages, built as the exact projection of the
query point onto one consecutive geometry segment (so `geometryRelPos` is
the exact projection fraction); it returns `none` only when there is no
candidate at all.  Moreover the loop pops a minimal-bound entry each step
and terminates exactly when the best candidate's exact distance is at most
the smallest remaining lower bound in the queue or the queue is empty. -/
theorem c3_findNearestNode (bn : BlockId → List (NodeId × List (ℚ × ℚ)))
    (packages : List (Rect × RTree)) (pos : ℚ × ℚ)
    (hsound : ∀ p ∈ packages, soundTree bn pos p.2 = true ∧
      ∀ c ∈ treeCands bn pos p.2, getBBoxDistance pos p.1 ≤ c.dist) :
    (findNearestNode bn packages pos = none → allCands bn pos packages = []) ∧
    (∀ r, findNearestNode bn packages pos = some r →
      r ∈ allCands bn pos packages ∧
      (∀ c ∈ allCands bn pos packages, r.dist ≤ c.dist) ∧
      ∃ bid, ∃ ng ∈ bn bid, ∃ i : Nat, i < ng.2.length - 1 ∧
        r = Cand.mk (NearestNode.mk
              (segClosestPoint pos (ng.2.getD i (0, 0)) (ng.2.getD (i + 1) (0, 0)))
              ng.1 i (segRelPos pos (ng.2.getD i (0, 0)) (ng.2.getD (i + 1) (0, 0))))
            (sqDist pos (segClosestPoint pos (ng.2.getD i (0, 0))
              (ng.2.getD (i + 1) (0, 0))))) ∧
    (∀ q m rest, popMin q = some (m, rest) → ∀ e ∈ q, m.1 ≤ e.1) ∧
    (∀ q best, popMin q = none → searchLoop bn pos q best = best) ∧
    (∀ q best m rest bc, popMin q = some (m, rest) → best = some bc →
      bc.dist ≤ m.1 → searchLoop bn pos q best = some bc) ∧
    (∀ q best m rest, popMin q = some (m, rest) → stopNow best m.1 = false →
      searchLoop bn pos q best =
        searchLoop bn pos (expandQueue pos rest m.2) (expandBest bn pos best m.2)) := by
  have hseed : ∀ e ∈ packages.map (fun p => (getBBoxDistance pos p.1, p.2)),
      EntrySound bn pos e := by
    intro e he
    obtain ⟨p, hp, hpe⟩ := List.mem_map.mp he
    obtain ⟨hst, hbd⟩ := hsound p hp
    rw [← hpe]
    exact ⟨hst, hbd⟩
  obtain ⟨hnone, hsome⟩ := searchLoop_spec_self bn pos _ none hseed
  refine ⟨?_, ?_, ?_, ?_, ?_, ?_⟩
  · intro hfind
    have := (hnone hfind).2
    rw [allCands_eq_qCands] at this
    exact this
  · intro r hfind
    obtain ⟨hmem, hmin, _⟩ := hsome r hfind
    have hmem' : r ∈ allCands bn pos packages := by
      rcases hmem with h | h
      · rw [← allCands_eq_qCands bn pos packages]
        exact h
      · exact absurd h (by simp)
    refine ⟨hmem', ?_, ?_⟩
    · intro c hc
      refine hmin c ?_
      rw [allCands_eq_qCands]
      exact hc
    · obtain ⟨p, hpl, hpc⟩ := List.mem_flatten.mp hmem'
      obtain ⟨pk, _, hple⟩ := List.mem_map.mp hpl
      rw [← hple] at hpc
      obtain ⟨bid, hbc⟩ :=
        treeCands_mem_block bn pos (RTree.size pk.2) pk.2 (le_refl _) r hpc
      exact ⟨bid, blockCandidates_fields bn pos bid r hbc⟩
  · exact fun q m rest hpop e he => popMin_min q m rest hpop e he
  · exact fun q best hpop => searchLoop_empty bn pos q best hpop
  · intro q best m rest bc hpop hb hle
    rw [hb, searchLoop_step bn pos q (some bc) m rest hpop]
    have hstop : stopNow (some bc) m.1 = true := decide_eq_true hle
    rw [if_pos hstop]
  · intro q best m rest hpop hns
    rw [searchLoop_step bn pos q best m rest hpop]
    rw [if_neg (by rw [hns]; simp)]

/-- The witness package's block id. -/
def wBid : BlockId := BlockId.mk 0 0

/-- The witness node id. -/
def wNode : NodeId := ElementId.mk wBid 0

/-- One node whose geometry is the segment from `(0,0)` to `(2,0)`. -/
def wBlockNodes : BlockId → List (NodeId × List (ℚ × ℚ)) :=
  fun _ => [(wNode, [((0 : ℚ), (0 : ℚ)), ((2 : ℚ), (0 : ℚ))])]

/-- The bounding box of the witness geometry. -/
def wRect : Rect := Rect.mk 0 0 2 0

/-- A single-leaf R-tree over the witness block. -/
def wTree : RTree := RTree.mk RForest.nil [(wRect, wBid)]

/-- One package with one R-tree root. -/
def wPackages : List (Rect × RTree) := [(wRect, wTree)]

/-- The witness query point. -/
def wPos : ℚ × ℚ := (1, 1)

/-- The expected result: projection fraction 1/2 onto the segment, closest
point `(1,0)`, squared distance 1. -/
def wCand : Cand := Cand.mk (NearestNode.mk ((1 : ℚ), (0 : ℚ)) wNode 0 (1 / 2 : ℚ)) 1

/-- The projection fraction of the witness query onto the witness
segment. -/
theorem wRelPos : segRelPos wPos ((0 : ℚ), (0 : ℚ)) ((2 : ℚ), (0 : ℚ)) = 1 / 2 := by
  unfold segRelPos clampQ wPos
  norm_num [min_def, max_def]

/-- The closest point of the witness segment. -/
theorem wClosest :
    segClosestPoint wPos ((0 : ℚ), (0 : ℚ)) ((2 : ℚ), (0 : ℚ)) = ((1 : ℚ), (0 : ℚ)) := by
  unfold segClosestPoint
  rw [wRelPos]
  norm_num

/-- The witness candidate's exact squared distance. -/
theorem wSq : sqDist wPos ((1 : ℚ), (0 : ℚ)) = 1 := by
  unfold sqDist wPos
  norm_num

/-- The witness geometry produces exactly the expected candidate. -/
theorem wGeomCands :
    geometryCandidates wPos wNode [((0 : ℚ), (0 : ℚ)), ((2 : ℚ), (0 : ℚ))] = [wCand] := by
  unfold geometryCandidates
  show (List.range 1).map _ = [wCand]
  rw [(by decide : List.range 1 = [0]), List.map_cons, List.map_nil]
  rw [List.cons.injEq]
  refine ⟨?_, rfl⟩
  show Cand.mk (NearestNode.mk
      (segClosestPoint wPos ((0 : ℚ), (0 : ℚ)) ((2 : ℚ), (0 : ℚ))) wNode 0
      (segRelPos wPos ((0 : ℚ), (0 : ℚ)) ((2 : ℚ), (0 : ℚ))))
    (sqDist wPos (segClosestPoint wPos ((0 : ℚ), (0 : ℚ)) ((2 : ℚ), (0 : ℚ)))) = wCand
  rw [wRelPos, wClosest, wSq]
  rfl

/-- The witness block produces exactly the expected candidate. -/
theorem wBlockCands : blockCandidates wBlockNodes wPos wBid = [wCand] := by
  show geometryCandidates wPos wNode [((0 : ℚ), (0 : ℚ)), ((2 : ℚ), (0 : ℚ))] ++
    ([] : List Cand) = [wCand]
  rw [List.append_nil, wGeomCands]

/-- The witness tree's only candidate. -/
theorem wTreeCands : treeCands wBlockNodes wPos wTree = [wCand] := by
  show ([(wRect, wBid)].map (fun l => blockCandidates wBlockNodes wPos l.2)).flatten ++
    forestCands wBlockNodes wPos RForest.nil = [wCand]
  simp [wBlockCands, forestCands]

/-- The bbox lower bound at the witness query. -/
theorem wBBox : getBBoxDistance wPos wRect = 1 := by
  unfold getBBoxDistance clampQ sqDist wPos wRect
  norm_num [min_def, max_def]

/-- The witness forest's bounds are sound. -/
theorem wSound : ∀ p ∈ wPackages, soundTree wBlockNodes wPos p.2 = true ∧
    ∀ c ∈ treeCands wBlockNodes wPos p.2, getBBoxDistance wPos p.1 ≤ c.dist := by
  intro p hp
  have hp' : p = (wRect, wTree) := by
    simpa [wPackages] using hp
  subst hp'
  refine ⟨?_, ?_⟩
  · show ([(wRect, wBid)].all (fun l => boundsCands (getBBoxDistance wPos l.1)
      (blockCandidates wBlockNodes wPos l.2)) &&
      soundForest wBlockNodes wPos RForest.nil) = true
    rw [List.all_cons, List.all_nil]
    have hb : boundsCands (getBBoxDistance wPos ((wRect, wBid) : Rect × BlockId).1)
        (blockCandidates wBlockNodes wPos ((wRect, wBid) : Rect × BlockId).2) = true := by
      show boundsCands (getBBoxDistance wPos wRect)
        (blockCandidates wBlockNodes wPos wBid) = true
      rw [wBlockCands, wBBox]
      unfold boundsCands
      rw [List.all_cons, List.all_nil]
      have : wCand.dist = 1 := rfl
      rw [this]
      simp
    rw [hb]
    rfl
  · intro c hc
    have hc' : c ∈ treeCands wBlockNodes wPos wTree := hc
    rw [wTreeCands] at hc'
    have hc'' : c = wCand := by simpa using hc'
    subst hc''
    show getBBoxDistance wPos wRect ≤ wCand.dist
    rw [wBBox]
    have : wCand.dist = 1 := rfl
    rw [this]

/-- Concrete run of the modelled search on the witness data. -/
theorem wRun : findNearestNode wBlockNodes wPackages wPos = some wCand := by
  have h1 : popMin (wPackages.map (fun p => (getBBoxDistance wPos p.1, p.2))) =
      some ((getBBoxDistance wPos wRect, wTree), []) := rfl
  unfold findNearestNode
  rw [searchLoop_step wBlockNodes wPos _ none (getBBoxDistance wPos wRect, wTree) [] h1]
  rw [if_neg (by decide)]
  rw [searchLoop_empty wBlockNodes wPos _ _ (by rfl)]
  have hleaf : leafCands wBlockNodes wPos wTree = [wCand] := by
    show ([(wRect, wBid)].map (fun l => blockCandidates wBlockNodes wPos l.2)).flatten =
      [wCand]
    simp [wBlockCands]
  show expandBest wBlockNodes wPos none wTree = some wCand
  unfold expandBest
  rw [hleaf]
  rfl

/-- C3, witness: on the concrete one-package forest the search returns the
projection candidate with `geometryRelPos = 1/2` and it beats every
candidate. -/
theorem c3_findNearestNode_witness :
    findNearestNode wBlockNodes wPackages wPos = some wCand ∧
    wCand ∈ allCands wBlockNodes wPos wPackages ∧
    (∀ c ∈ allCands wBlockNodes wPos wPackages, wCand.dist ≤ c.dist) ∧
    wCand.res.geometryRelPos = (1 / 2 : ℚ) := by
  have happ := c3_findNearestNode wBlockNodes wPackages wPos wSound
  obtain ⟨hm, hmin, _⟩ := happ.2.1 wCand wRun
  exact ⟨wRun, hm, hmin, rfl⟩

end NutiRouting

namespace XmlInput

/-! ## libosmium XML root element handling
(`src/third_party/libosmium/include/osmium/io/detail/xml_input_format.hpp`,
`XMLParser::start_element`, lines 445-469)

In `context::root`, an `osm` or `osmChange` element has its attributes
scanned in order: a `version` attribute is stored into the header and, if
its value differs from `"0.6"`, `osmium::format_version_error(value)` is
thrown; a `generator` attribute is stored; others are ignored.  After the
scan, if the header still has no version, `osmium::format_version_error()`
is thrown.  Only when no throw happened does the parser move to
`context::top`.  Any other top-level element throws `osmium::xml_error`. -/

/-- The exceptions thrown by the root-element handling. -/
inductive OsmiumError where
  | formatVersionError (v : Option String)
  | xmlError (msg : String)
deriving DecidableEq

/-- The parts of `osmium::io::Header` that the root-element handling sets
(`version` and `generator` default to the empty string). -/
structure OsmiumHeader where
  version : String
  generator : String
  hasMultipleObjectVersions : Bool
deriving DecidableEq

/-- `m_header.set("version", v)`. -/
def setVersion (h : OsmiumHeader) (v : String) : OsmiumHeader :=
  OsmiumHeader.mk v h.generator h.hasMultipleObjectVersions

/-- `m_header.set("generator", v)`. -/
def setGenerator (h : OsmiumHeader) (v : String) : OsmiumHeader :=
  OsmiumHeader.mk h.version v h.hasMultipleObjectVersions

/-- `m_header.set_has_multiple_object_versions(true)`. -/
def setMultipleObjectVersions (h : OsmiumHeader) (b : Bool) : OsmiumHeader :=
  OsmiumHeader.mk h.version h.generator b

/-- The attribute scan of the root `osm`/`osmChange` element (lines
452-461): attributes are processed in order; a `version` attribute is stored
and checked against `"0.6"`, throwing `format_version_error` carrying the
offending value on mismatch. -/
def processRootAttrs (h : OsmiumHeader) :
    List (String × String) → Except OsmiumError OsmiumHeader
  | [] => Except.ok h
  | (k, v) :: rest =>
    if k = "version" then
      if v ≠ "0.6" then Except.error (OsmiumError.formatVersionError (some v))
      else processRootAttrs (setVersion h v) rest
    else if k = "generator" then processRootAttrs (setGenerator h v) rest
    else processRootAttrs h rest

/-- `XMLParser::start_element` in `context::root` (lines 447-468): an `ok`
result means the parser reached `m_context = context::top`, i.e. parsing
proceeds past the root element with the resulting header. -/
def startElementRoot (h : OsmiumHeader) (element : String)
    (attrs : List (String × String)) : Except OsmiumError OsmiumHeader :=
  if element = "osm" ∨ element = "osmChange" then
    match processRootAttrs
        (if element = "osmChange" then setMultipleObjectVersions h true else h)
        attrs with
    | Except.error e => Except.error e
    | Except.ok h1 =>
      if h1.version = "" then Except.error (OsmiumError.formatVersionError none)
      else Except.ok h1
  else Except.error (OsmiumError.xmlError ("Unknown top-level element: " ++ element))

/-- The first `version` attribute whose value is not `"0.6"`. -/
def firstBadVersion (attrs : List (String × String)) : Option String :=
  ((attrs.filter (fun a => decide (a.1 = "version") && decide (a.2 ≠ "0.6"))).head?).map
    Prod.snd

/-- The attribute scan throws `format_version_error` carrying exactly the
first `version` value that differs from `"0.6"`. -/
theorem processRootAttrs_bad (attrs : List (String × String)) :
    ∀ h : OsmiumHeader, ∀ v, firstBadVersion attrs = some v →
      processRootAttrs h attrs = Except.error (OsmiumError.formatVersionError (some v)) := by
  induction attrs with
  | nil =>
    intro h v hbad
    exact absurd hbad (by simp [firstBadVersion])
  | cons a rest ih =>
    intro h v hbad
    obtain ⟨k, w⟩ := a
    by_cases hk : k = "version"
    · by_cases hw : w ≠ "0.6"
      · have hv : v = w := by
          unfold firstBadVersion at hbad
          rw [List.filter_cons_of_pos (by simp [hk, hw])] at hbad
          simp at hbad
          exact hbad.symm
        subst hv
        unfold processRootAttrs
        rw [if_pos hk, if_pos hw]
      · have hw' : w = "0.6" := by
          by_cases hc : w = "0.6"
          · exact hc
          · exact absurd hc hw
        have hbad' : firstBadVersion rest = some v := by
          unfold firstBadVersion at hbad
          rw [List.filter_cons_of_neg (by simp [hw'])] at hbad
          exact hbad
        unfold processRootAttrs
        rw [if_pos hk, if_neg hw]
        exact ih (setVersion h w) v hbad'
    · have hbad' : firstBadVersion rest = some v := by
        unfold firstBadVersion at hbad
        rw [List.filter_cons_of_neg (by simp [hk])] at hbad
        exact hbad
      unfold processRootAttrs
      rw [if_neg hk]
      by_cases hg : k = "generator"
      · rw [if_pos hg]
        exact ih (setGenerator h w) v hbad'
      · rw [if_neg hg]
        exact ih h v hbad'

/-- When no attribute is named `version`, the scan leaves the header's
version untouched. -/
theorem processRootAttrs_noVersion (attrs : List (String × String)) :
    ∀ h : OsmiumHeader, (∀ a ∈ attrs, a.1 ≠ "version") →
      ∃ h1, processRootAttrs h attrs = Except.ok h1 ∧ h1.version = h.version := by
  induction attrs with
  | nil =>
    intro h _
    exact ⟨h, rfl, rfl⟩
  | cons a rest ih =>
    intro h hnov
    obtain ⟨k, w⟩ := a
    have hk : k ≠ "version" := hnov (k, w) (List.mem_cons_self _ _)
    unfold processRootAttrs
    rw [if_neg hk]
    by_cases hg : k = "generator"
    · rw [if_pos hg]
      obtain ⟨h1, heq, hver⟩ :=
        ih (setGenerator h w) (fun a ha => hnov a (List.mem_cons_of_mem _ ha))
      exact ⟨h1, heq, hver⟩
    · rw [if_neg hg]
      exact ih h (fun a ha => hnov a (List.mem_cons_of_mem _ ha))

/-- A successful scan means every `version` attribute had value `"0.6"`, and
if the scanned header ends with a non-empty version although it started
empty, some `version` attribute was present. -/
theorem processRootAttrs_ok (attrs : List (String × String)) :
    ∀ h h1 : OsmiumHeader, processRootAttrs h attrs = Except.ok h1 →
      firstBadVersion attrs = none ∧
      (h1.version ≠ h.version → ∃ a ∈ attrs, a.1 = "version" ∧ a.2 = "0.6") := by
  induction attrs with
  | nil =>
    intro h h1 hok
    have : h = h1 := by
      simpa [processRootAttrs] using hok
    exact ⟨by simp [firstBadVersion], fun hne => absurd (this ▸ rfl) hne⟩
  | cons a rest ih =>
    intro h h1 hok
    obtain ⟨k, w⟩ := a
    unfold processRootAttrs at hok
    by_cases hk : k = "version"
    · rw [if_pos hk] at hok
      by_cases hw : w ≠ "0.6"
      · rw [if_pos hw] at hok
        exact absurd hok (by simp)
      · rw [if_neg hw] at hok
        have hw' : w = "0.6" := by
          by_cases hc : w = "0.6"
          · exact hc
          · exact absurd hc hw
        obtain ⟨hnone, _⟩ := ih (setVersion h w) h1 hok
        refine ⟨?_, fun _ => ⟨(k, w), List.mem_cons_self _ _, hk, hw'⟩⟩
        unfold firstBadVersion
        rw [List.filter_cons_of_neg (by simp [hw'])]
        exact hnone
    · rw [if_neg hk] at hok
      have step : ∀ h' : OsmiumHeader, processRootAttrs h' rest = Except.ok h1 →
          h'.version = h.version →
          firstBadVersion ((k, w) :: rest) = none ∧
          (h1.version ≠ h.version → ∃ a ∈ (k, w) :: rest, a.1 = "version" ∧ a.2 = "0.6") := by
        intro h' hok' hver
        obtain ⟨hnone, hpres⟩ := ih h' h1 hok'
        refine ⟨?_, fun hne => ?_⟩
        · unfold firstBadVersion
          rw [List.filter_cons_of_neg (by simp [hk])]
          exact hnone
        · obtain ⟨a, ha, hav⟩ := hpres (by rw [hver]; exact hne)
          exact ⟨a, List.mem_cons_of_mem _ ha, hav⟩
      by_cases hg : k = "generator"
      · rw [if_pos hg] at hok
        exact step (setGenerator h w) hok rfl
      · rw [if_neg hg] at hok
        exact step h hok rfl

/-- C10: for the top-level `osm`/`osmChange` element of a fresh parse
(header version still empty), a `version` attribute differing from `"0.6"`
makes `start_element` throw `format_version_error` carrying that version,
the absence of any `version` attribute makes it throw
`format_version_error` with no version, and parsing never proceeds past the
root element (never reaches `context::top`) unless a `version="0.6"`
attribute is present and no differing `version` attribute precedes it. -/
theorem c10_xml_version_check (h : OsmiumHeader) (element : String)
    (attrs : List (String × String))
    (hel : element = "osm" ∨ element = "osmChange") (hinit : h.version = "") :
    (∀ v, firstBadVersion attrs = some v →
      startElementRoot h element attrs =
        Except.error (OsmiumError.formatVersionError (some v))) ∧
    ((∀ a ∈ attrs, a.1 ≠ "version") →
      startElementRoot h element attrs =
        Except.error (OsmiumError.formatVersionError none)) ∧
    (∀ h1, startElementRoot h element attrs = Except.ok h1 →
      firstBadVersion attrs = none ∧ ∃ a ∈ attrs, a.1 = "version" ∧ a.2 = "0.6") := by
  have hverinit :
      (if element = "osmChange" then setMultipleObjectVersions h true else h).version
        = "" := by
    by_cases hc : element = "osmChange"
    · rw [if_pos hc]
      exact hinit
    · rw [if_neg hc]
      exact hinit
  refine ⟨?_, ?_, ?_⟩
  · intro v hbad
    unfold startElementRoot
    rw [if_pos hel,
      processRootAttrs_bad attrs
        (if element = "osmChange" then setMultipleObjectVersions h true else h) v hbad]
  · intro hnov
    unfold startElementRoot
    rw [if_pos hel]
    obtain ⟨h1, heq, hver⟩ :=
      processRootAttrs_noVersion attrs
        (if element = "osmChange" then setMultipleObjectVersions h true else h) hnov
    rw [heq]
    show (if h1.version = "" then Except.error (OsmiumError.formatVersionError none)
      else Except.ok h1) = Except.error (OsmiumError.formatVersionError none)
    rw [if_pos (hver.trans hverinit)]
  · intro h1 hok
    unfold startElementRoot at hok
    rw [if_pos hel] at hok
    cases hpr : processRootAttrs
        (if element = "osmChange" then setMultipleObjectVersions h true else h) attrs with
    | error e =>
      rw [hpr] at hok
      exact absurd hok (by simp)
    | ok h2 =>
      rw [hpr] at hok
      have hok2 : (if h2.version = "" then
          Except.error (OsmiumError.formatVersionError none) else Except.ok h2) =
          Except.ok h1 := hok
      by_cases hv : h2.version = ""
      · rw [if_pos hv] at hok2
        exact absurd hok2 (by simp)
      · rw [if_neg hv] at hok2
        obtain ⟨hnone, hpres⟩ :=
          processRootAttrs_ok attrs
            (if element = "osmChange" then setMultipleObjectVersions h true else h) h2 hpr
        exact ⟨hnone, hpres (by rw [hverinit]; exact hv)⟩

/-- A fresh osmium header. -/
def freshHeader : OsmiumHeader := OsmiumHeader.mk "" "" false

/-- C10, witness: an `osm` root with `version="0.5"` throws carrying `0.5`;
without any `version` attribute it throws the bare error; with
`version="0.6"` parsing proceeds only because that attribute is present. -/
theorem c10_xml_version_check_witness :
    (∀ v, firstBadVersion [("generator", "x"), ("version", "0.5")] = some v →
      startElementRoot freshHeader "osm" [("generator", "x"), ("version", "0.5")] =
        Except.error (OsmiumError.formatVersionError (some v))) ∧
    ((∀ a ∈ [("generator", "x"), ("version", "0.5")], a.1 ≠ "version") →
      startElementRoot freshHeader "osm" [("generator", "x"), ("version", "0.5")] =
        Except.error (OsmiumError.formatVersionError none)) ∧
    (∀ h1, startElementRoot freshHeader "osm" [("generator", "x"), ("version", "0.5")] =
        Except.ok h1 →
      firstBadVersion [("generator", "x"), ("version", "0.5")] = none ∧
      ∃ a ∈ [("generator", "x"), ("version", "0.5")], a.1 = "version" ∧ a.2 = "0.6") :=
  c10_xml_version_check freshHeader "osm" [("generator", "x"), ("version", "0.5")]
    (Or.inl rfl) rfl

end XmlInput
